import Mathlib

/-!
Verification development for the `urlf` URL-formatting library.

The definitions below are a shallow embedding of the Go sources:
`parser.go` (tokenizer and structural parser) and the formatter file
(`TryCustomFormatter`, `overwrite`, `updateQuery`), together with the parts
of Go's `net/url` package that the formatter observably relies on
(`url.Values.Encode`, `url.URL.String`, percent escaping).

Conventions of the embedding:
* Go `any` arguments are modelled by the closed inductive `Value`, with one
  constructor per dynamic type the code inspects (`string`, `*string`,
  `int`, `*int`, `nil`, slices, `url.Values`) plus `other` for anything else.
* Go machine integers are modelled as `Int`/`Nat`; `uint16` values are `Nat`
  and are kept below 65536 by the same checks the code performs.
* A fallible computation returns `Outcome α`: `ok`, `error msg` (a returned
  Go `error`), `panicked` (a Go runtime panic, e.g. index out of range), or
  `diverged` (the Go loop never terminates; see `parseLoop`, whose fuel is a
  strict upper bound on the iterations of every terminating run).
-/

/-- Dynamic (runtime) argument values passed to the formatter, mirroring the
Go `any` parameters and the type switches performed on them. -/
inductive Value where
  | str (s : String)
  | strPtr (s : String)
  | int (n : Int)
  | intPtr (n : Int)
  | nil
  | list (elems : List Value)
  | values (vs : List (String × List String))
  | other

/-- Outcome of running an embedded Go computation. -/
inductive Outcome (α : Type) where
  | ok (val : α)
  | error (msg : String)
  | panicked
  | diverged
deriving DecidableEq

/-- Sequencing of embedded computations, mirroring Go's early-return on
error and propagation of panics. -/
def Outcome.bind {α β : Type} : Outcome α → (α → Outcome β) → Outcome β
  | .ok v, f => f v
  | .error e, _ => .error e
  | .panicked, _ => .panicked
  | .diverged, _ => .diverged

instance : Monad Outcome where
  pure := .ok
  bind := .bind

/-- Truth value of an outcome being a returned Go error. -/
def Outcome.isError {α : Type} : Outcome α → Bool
  | .error _ => true
  | _ => false

/-- Map over a successful outcome. -/
def Outcome.map' {α β : Type} (f : α → β) : Outcome α → Outcome β
  | .ok v => .ok (f v)
  | .error e => .error e
  | .panicked => .panicked
  | .diverged => .diverged

/-- Decimal rendering of a Go `int`, i.e. `strconv.Itoa`. -/
def itoa (n : Int) : String := toString n

/-! ### Go `net/url` escaping. -/

/-- Escaping modes of Go `net/url.escape` that this program exercises. -/
inductive EscMode where
  | host
  | userPassword
  | path
  | queryComponent
  | fragment
deriving DecidableEq

/-- Byte membership in the literal characters of a string (all ASCII here). -/
def byteInStr (c : Nat) (s : String) : Bool :=
  s.data.any (fun ch => ch.toNat == c)

/-- Go `net/url.shouldEscape` restricted to the modes used here, acting on a
single byte `c`. -/
def shouldEscape (m : EscMode) (c : Nat) : Bool :=
  if (97 ≤ c ∧ c ≤ 122) ∨ (65 ≤ c ∧ c ≤ 90) ∨ (48 ≤ c ∧ c ≤ 57) then false
  else if m = .host ∧ byteInStr c "!$&\x27()*+,;=:[]<>\"" then false
  else if byteInStr c "-_.~" then false
  else if byteInStr c "$&+,/:;=?@" then
    match m with
    | .path => c == 63
    | .userPassword => byteInStr c "@/?:"
    | .queryComponent => true
    | .fragment => false
    | .host => true
  else if m = .fragment ∧ byteInStr c "!()*" then false
  else true

/-- Uppercase hexadecimal digit, as used by Go's escaper. -/
def hexDigit (n : Nat) : Char :=
  "0123456789ABCDEF".data.getD n '0'

/-- UTF-8 encoding of one character as a byte list; Go strings are the UTF-8
bytes of their contents. -/
def utf8Bytes (c : Char) : List Nat :=
  let n := c.toNat
  if n < 128 then [n]
  else if n < 2048 then [192 + n / 64, 128 + n % 64]
  else if n < 65536 then [224 + n / 4096, 128 + n / 64 % 64, 128 + n % 64]
  else [240 + n / 262144, 128 + n / 4096 % 64, 128 + n / 64 % 64, 128 + n % 64]

/-- Byte sequence of a string. -/
def strBytes (s : String) : List Nat :=
  s.data.flatMap utf8Bytes

/-- Escaping of one byte in mode `m` (Go writes a space as `+` only when
escaping a query component). -/
def escapeByte (m : EscMode) (c : Nat) : List Char :=
  if shouldEscape m c then
    if c == 32 ∧ m = .queryComponent then ['+']
    else ['%', hexDigit (c / 16), hexDigit (c % 16)]
  else [Char.ofNat c]

/-- Go `net/url.escape`. -/
def escapeStr (m : EscMode) (s : String) : String :=
  ⟨(strBytes s).flatMap (escapeByte m)⟩

/-! ### Go `url.Values` (query collection). -/

/-- The `url.Values` map, modelled as an association list from keys to the
ordered lists of their values.  Keys are unique in every collection the
formatter builds (see `Values.add` / `Values.set`); the Go map's arbitrary
iteration order is irrelevant because `Values.encode` sorts the keys. -/
def Values := List (String × List String)

instance : DecidableEq Values := by
  unfold Values; infer_instance

/-- The value list stored under a key (Go `v[key]`, empty when absent). -/
def Values.get (q : Values) (k : String) : List String :=
  match q with
  | [] => []
  | (k', vs) :: rest => if k' = k then vs else Values.get rest k

/-- Go `url.Values.Add`: append one value under a key. -/
def Values.add (q : Values) (k v : String) : Values :=
  match q with
  | [] => [(k, [v])]
  | (k', vs) :: rest =>
    if k' = k then (k', vs ++ [v]) :: rest else (k', vs) :: Values.add rest k v

/-- Go `url.Values.Set`: replace all values of a key by one value. -/
def Values.set (q : Values) (k v : String) : Values :=
  match q with
  | [] => [(k, [v])]
  | (k', vs) :: rest =>
    if k' = k then (k', [v]) :: rest else (k', vs) :: Values.set rest k v

/-- The keys of a collection, in entry order. -/
def Values.keys (q : Values) : List String :=
  q.map Prod.fst

/-- Lexicographic (code-point, equivalently UTF-8 byte) order on character
lists, as a boolean; this is the order Go's `slices.Sort` uses on strings. -/
def charListLe : List Char → List Char → Bool
  | [], _ => true
  | _ :: _, [] => false
  | a :: as, b :: bs =>
    if a.toNat < b.toNat then true
    else if b.toNat < a.toNat then false
    else charListLe as bs

/-- String order used when sorting query keys. -/
def strLe (a b : String) : Bool := charListLe a.data b.data

/-- Insertion into a sorted list of strings. -/
def insertSorted (s : String) : List String → List String
  | [] => [s]
  | t :: rest => if strLe s t then s :: t :: rest else t :: insertSorted s rest

/-- Sorting of the key list (Go `slices.Sort` inside `url.Values.Encode`). -/
def sortStrings : List String → List String
  | [] => []
  | s :: rest => insertSorted s (sortStrings rest)

/-- The ordered `key, value` pairs that `url.Values.Encode` serializes: keys
in sorted order, the values of each key in stored order. -/
def Values.encodePairs (q : Values) : List (String × String) :=
  (sortStrings q.keys).flatMap (fun k => (Values.get q k).map (fun v => (k, v)))

/-- Go `url.QueryEscape`. -/
def queryEscape (s : String) : String := escapeStr .queryComponent s

/-- Serialization of one `key=value` pair. -/
def renderPair (p : String × String) : String :=
  queryEscape p.1 ++ "=" ++ queryEscape p.2

/-- Serialization of an ordered pair list with `&` separators. -/
def renderPairs (ps : List (String × String)) : String :=
  String.intercalate "&" (ps.map renderPair)

/-- Go `url.Values.Encode`. -/
def Values.encode (q : Values) : String :=
  renderPairs (Values.encodePairs q)

/-! ### The structured URL record and Go `url.URL.String`. -/

/-- The fields of Go's `url.URL` that the formatter sets (`Opaque`,
`RawPath`, `OmitHost`, `ForceQuery`, `RawFragment` stay at their zero
values).  `userSet` models `User != nil`. -/
structure URLRec where
  scheme : String := ""
  host : String := ""
  userSet : Bool := false
  username : String := ""
  password : String := ""
  path : String := ""
  rawQuery : String := ""
  fragment : String := ""
deriving DecidableEq

/-- Whether the segment of the path before the first `/` contains a `:`
(Go guards a relative path against being read as a scheme). -/
def colonBeforeSlash (p : List Char) : Bool :=
  (p.takeWhile (· ≠ '/')).contains ':'

/-- Go `url.URL.String` specialized to records with zero `Opaque`,
`RawPath`, `OmitHost`, `ForceQuery` and `RawFragment`. -/
def URLRec.render (u : URLRec) : String :=
  let base :=
    (if u.scheme ≠ "" then u.scheme ++ ":" else "") ++
    (if u.scheme ≠ "" ∨ u.host ≠ "" ∨ u.userSet then
      (if u.host ≠ "" ∨ u.path ≠ "" ∨ u.userSet then "//" else "") ++
      (if u.userSet then
        escapeStr .userPassword u.username ++ ":" ++
          escapeStr .userPassword u.password ++ "@"
       else "") ++
      (if u.host ≠ "" then escapeStr .host u.host else "")
     else "")
  let p := escapeStr .path u.path
  let base2 := if p ≠ "" ∧ p.data.head? ≠ some '/' ∧ u.host ≠ "" then base ++ "/" else base
  let base3 := if base2 = "" ∧ colonBeforeSlash p.data then "./" else base2
  let withPath := base3 ++ p
  let withQuery := if u.rawQuery ≠ "" then withPath ++ "?" ++ u.rawQuery else withPath
  if u.fragment ≠ "" then withQuery ++ "#" ++ escapeStr .fragment u.fragment
  else withQuery

/-! ### Tokenizer (`splitterPattern` and the token loop in `parse`). -/

/-- Tokens of a template string. -/
inductive Tok where
  | sep (text : String)
  | static (text : String)
  | placeholder (index : Nat)
deriving DecidableEq

/-- Single-character separators of the splitter pattern. -/
def sepChar (c : Char) : Bool :=
  c = ':' ∨ c = '/' ∨ c = '?' ∨ c = '&' ∨ c = '=' ∨ c = '#' ∨ c = '@'

/-- Flush of a pending (reversed) static run. -/
def flushStatic (acc : List Char) : List Tok :=
  if acc.isEmpty then [] else [.static ⟨acc.reverse⟩]

/-- Scanner for the splitter regular expression
`(?:://)|(?://)|[:/?&=#@]|\x7b\x7d`: at each position the longest/first
alternative wins, and non-matching runs become static tokens.  Placeholder
indices are assigned afterwards by `numberTokens`. -/
def rawTokens : List Char → List Char → List Tok
  | [], acc => flushStatic acc
  | ':' :: '/' :: '/' :: rest, acc => flushStatic acc ++ Tok.sep "://" :: rawTokens rest []
  | '/' :: '/' :: rest, acc => flushStatic acc ++ Tok.sep "//" :: rawTokens rest []
  | '{' :: '}' :: rest, acc => flushStatic acc ++ Tok.placeholder 0 :: rawTokens rest []
  | c :: rest, acc =>
    if sepChar c then flushStatic acc ++ Tok.sep ⟨[c]⟩ :: rawTokens rest []
    else rawTokens rest (c :: acc)

/-- Assignment of sequential indices to placeholder tokens. -/
def numberTokens : List Tok → Nat → List Tok
  | [], _ => []
  | .placeholder _ :: rest, n => .placeholder n :: numberTokens rest (n + 1)
  | t :: rest, n => t :: numberTokens rest n

/-- The token sequence of a template string. -/
def tokenize (s : String) : List Tok :=
  numberTokens (rawTokens s.data []) 0

/-! ### Structural parser (`parse` in parser.go). -/

/-- Either a literal value or a reference to the positional argument at
`index` (the Go `part[T]` struct with its `partType` tag). -/
inductive part (α : Type) where
  | static (value : α)
  | param (index : Nat)
deriving DecidableEq

/-- One query entry: a literal key (`""` denotes a query-set placeholder)
together with its value slot. -/
structure QueryPart where
  key : String
  value : part String
deriving DecidableEq

/-- The Go `parseResult` struct.  A static port is a `Nat` below 65536. -/
structure ParseResult where
  protocol : Option (part String) := none
  hostname : Option (part String) := none
  port : Option (part Nat) := none
  paths : List (part String) := []
  queries : List QueryPart := []
  fragment : Option (part String) := none
  username : String := ""
  password : String := ""
deriving DecidableEq

/-- Parser states (the Go `stepType`). -/
inductive Step where
  | protocol | hostname | port | path | query | queryKey | queryValue | fragment | invalid
deriving DecidableEq

/-- Entries of `invalidSeparator[protocol]` that are `true`. -/
def invalidSepProtocol (s : String) : Bool :=
  s = "://" ∨ s = ":" ∨ s = "?" ∨ s = "=" ∨ s = "&" ∨ s = "#" ∨ s = "@"

/-- Entries of `invalidSeparator[path]` that are `true`. -/
def invalidSepPath (s : String) : Bool :=
  s = "://" ∨ s = "//" ∨ s = ":" ∨ s = "=" ∨ s = "@"

/-- Entries of `invalidSeparator[query]` that are `true`. -/
def invalidSepQuery (s : String) : Bool :=
  s = "://" ∨ s = "//" ∨ s = ":" ∨ s = "/" ∨ s = "=" ∨ s = "&" ∨ s = "@"

/-- Entries of `invalidSeparator[queryKey]` that are `true`. -/
def invalidSepQueryKey (s : String) : Bool :=
  s = "://" ∨ s = "//" ∨ s = ":" ∨ s = "/" ∨ s = "?" ∨ s = "@"

/-- Entries of `invalidSeparator[queryValue]` that are `true`. -/
def invalidSepQueryValue (s : String) : Bool :=
  s = "://" ∨ s = "//" ∨ s = ":" ∨ s = "/" ∨ s = "?" ∨ s = "=" ∨ s = "@"

/-- Decimal digit test. -/
def isDigitChar (c : Char) : Bool := 48 ≤ c.toNat ∧ c.toNat ≤ 57

/-- Value of a digit run. -/
def digitsVal (l : List Char) : Nat :=
  l.foldl (fun a c => a * 10 + (c.toNat - 48)) 0

/-- Go `strconv.Atoi` on a 64-bit platform: optional sign, all digits,
`none` on empty input, a bad digit, or 64-bit overflow. -/
def goAtoi (s : String) : Option Int :=
  match s.data with
  | [] => none
  | c :: rest =>
    let signed : Bool × List Char :=
      if c = '-' then (true, rest)
      else if c = '+' then (false, rest)
      else (false, c :: rest)
    if signed.2.isEmpty ∨ ¬ signed.2.all isDigitChar then none
    else
      let v : Int := if signed.1 then -(digitsVal signed.2 : Int) else (digitsVal signed.2 : Int)
      if v < -(2 ^ 63) ∨ v > 2 ^ 63 - 1 then none else some v

/-- Go `strconv.ParseUint(s, 10, 16)`: digits only, value at most 65535. -/
def goParseUint16 (s : String) : Option Nat :=
  if s.data.isEmpty ∨ ¬ s.data.all isDigitChar then none
  else if digitsVal s.data ≤ 65535 then some (digitsVal s.data) else none

/-- The parser's `appendPath` helper: coalesce into a trailing static path
part, or start a new one. -/
def appendPathList (l : List (part String)) (p : String) : List (part String) :=
  match l.getLast? with
  | none => [.static p]
  | some (.static v) => l.dropLast ++ [.static (v ++ p)]
  | some (.param _) => l ++ [.static p]

/-- `appendPath` acting on the whole parse result. -/
def appendPathR (res : ParseResult) (p : String) : ParseResult :=
  { res with paths := appendPathList res.paths p }

/-- Record of a parametric path segment. -/
def appendParamPath (res : ParseResult) (i : Nat) : ParseResult :=
  { res with paths := res.paths ++ [.param i] }

/-- Record of one query entry. -/
def appendQuery (res : ParseResult) (k : String) (v : part String) : ParseResult :=
  { res with queries := res.queries ++ [⟨k, v⟩] }

/-- The parser state machine (the `for len(tokens) > 0` loop of `parse`).
Arguments: fuel, step, tokens, result so far, `lastToken`, `queryKeyStr`.
The Go loop does not consume a token on every iteration; three reachable
configurations never progress at all (an unconsumed single token in the
protocol state, and a static query key followed by end of input or by a
non-separator token).  Those configurations recurse without consuming and
exhaust the fuel, yielding `.diverged`; every terminating Go run performs
fewer iterations than the fuel `parse` supplies, so on all other inputs the
fuel is irrelevant. -/
def parseLoop : Nat → Step → List Tok → ParseResult → String → String → Outcome ParseResult
  | 0, _, _, _, _, _ => .diverged
  | _ + 1, _, [], res, _, _ => .ok res
  | fuel + 1, .protocol, p :: rest, res, last, qk =>
    match rest with
    | [] => parseLoop fuel .protocol [p] res last qk
    | s :: rest2 =>
      if s = Tok.sep "://" then
        match p with
        | .placeholder i =>
          parseLoop fuel .hostname rest2 { res with protocol := some (.param i) } "://" qk
        | .static t =>
          if t = "" then .error "parse failed: protocol name should not be empty"
          else parseLoop fuel .hostname rest2 { res with protocol := some (.static t) } "://" qk
        | .sep t =>
          parseLoop fuel .hostname rest2 { res with protocol := some (.static t) } "://" qk
      else
        match p with
        | .sep t =>
          if invalidSepProtocol t then .error "parse failed: invalid character in protocol position"
          else if t = "//" then parseLoop fuel .hostname rest res "//" qk
          else parseLoop fuel .path (Tok.sep t :: rest) res last qk
        | _ => parseLoop fuel .path (p :: rest) res last qk
  | fuel + 1, .hostname, h :: rest, res, _, qk =>
    match h with
    | .sep _ => .error "parse failed: only hostname string is expected"
    | .placeholder i =>
      parseLoop fuel .port rest { res with hostname := some (.param i) } "hostname" qk
    | .static t =>
      parseLoop fuel .port rest { res with hostname := some (.static t) } "hostname" qk
  | fuel + 1, .port, ps :: rest, res, last, qk =>
    if ps = Tok.sep ":" then
      match rest with
      | [] => .error "parse failed: port number is expected after the colon"
      | p :: rest2 =>
        match p with
        | .sep _ => .error "parse failed: after the colon only a port number is expected"
        | .placeholder i =>
          parseLoop fuel .path rest2 { res with port := some (.param i) } "port" qk
        | .static t =>
          match goAtoi t with
          | none => .error "parse failed: port must be a number"
          | some n =>
            if n < 1 ∨ n > 65535 then
              .error "parse failed: port number must be in range 1-65535"
            else parseLoop fuel .path rest2 { res with port := some (.static n.toNat) } "port" qk
    else parseLoop fuel .path (ps :: rest) res last qk
  | fuel + 1, .path, s :: rest, res, last, qk =>
    match s with
    | .placeholder _ => .error "parse failed: invalid placeholder in path position"
    | .static t =>
      if (res.protocol.isSome ∨ res.hostname.isSome) ∧ res.paths.isEmpty then
        .error "parse failed: invalid text after authority"
      else parseLoop fuel .path rest (appendPathR res t) last qk
    | .sep t =>
      if invalidSepPath t then .error "parse failed: invalid character in path position"
      else if t ≠ "/" then parseLoop fuel .query (Tok.sep t :: rest) res last qk
      else
        match rest with
        | [] => .ok (appendPathR res "/")
        | p :: rest2 =>
          match p with
          | .sep _ => parseLoop fuel .query (p :: rest2) (appendPathR res "/") "/" qk
          | .placeholder i =>
            parseLoop fuel .path rest2 (appendParamPath (appendPathR res "/") i)
              ("\x7b" ++ toString i ++ "\x7d") qk
          | .static t2 => parseLoop fuel .path rest2 (appendPathR res ("/" ++ t2)) ("/" ++ t2) qk
  | fuel + 1, .query, s :: rest, res, last, qk =>
    match s with
    | .placeholder _ => .error "parse failed: invalid placeholder in query position"
    | .static _ => .error "parse failed: invalid character in query position"
    | .sep t =>
      if invalidSepQuery t then .error "parse failed: invalid separator in query position"
      else if t = "?" then parseLoop fuel .queryKey rest res "?" qk
      else if t = "#" then parseLoop fuel .fragment rest res last qk
      else parseLoop fuel .query rest res last qk
  | fuel + 1, .queryKey, qt :: rest, res, last, qk =>
    match qt with
    | .sep _ => .error "parse failed: query key should be a string or placeholder"
    | .placeholder i =>
      match rest with
      | [] => .ok (appendQuery res "" (.param i))
      | s :: rest2 =>
        match s with
        | .static _ => .error "parse failed: invalid text after query set placeholder"
        | .sep st =>
          if invalidSepQueryValue st then
            .error "parse failed: invalid separator after query set placeholder"
          else if st = "#" then
            parseLoop fuel .fragment rest2 (appendQuery res "" (.param i)) last qk
          else parseLoop fuel .queryKey rest2 (appendQuery res "" (.param i)) last qk
        | .placeholder _ => parseLoop fuel .queryKey rest2 (appendQuery res "" (.param i)) last qk
    | .static t =>
      match rest with
      | [] => parseLoop fuel .queryKey [qt] (appendQuery res t (.static "")) last qk
      | s :: rest2 =>
        match s with
        | .sep st =>
          if invalidSepQueryKey st then .error "parse failed: invalid separator after query key"
          else if st = "=" then parseLoop fuel .queryValue rest2 res t t
          else if st = "#" then
            parseLoop fuel .fragment rest2 (appendQuery res t (.static "")) last qk
          else if st = "&" then
            parseLoop fuel .queryKey rest2 (appendQuery res t (.static "")) last qk
          else parseLoop fuel .queryKey rest2 res last qk
        | _ => parseLoop fuel .queryKey (qt :: s :: rest2) res last qk
  | fuel + 1, .queryValue, qv :: rest, res, last, qk =>
    match qv with
    | .sep _ => .error "parse failed: query value should be a string or placeholder"
    | _ =>
      let res2 :=
        match qv with
        | .placeholder i => appendQuery res qk (.param i)
        | .static t => appendQuery res qk (.static t)
        | .sep _ => res
      match rest with
      | [] => .ok res2
      | s :: rest2 =>
        match s with
        | .placeholder _ => .error "parse failed: invalid placeholder after query value"
        | .static _ => .error "parse failed: invalid text after query value"
        | .sep st =>
          if invalidSepQueryValue st then
            .error "parse failed: invalid separator after query value"
          else if st = "&" then parseLoop fuel .queryKey rest2 res2 last qk
          else if st = "#" then parseLoop fuel .fragment rest2 res2 last qk
          else parseLoop fuel .queryValue rest2 res2 last qk
  | fuel + 1, .fragment, f :: rest, res, last, qk =>
    match f with
    | .sep _ => .error "parse failed: invalid character in fragment position"
    | .static t => parseLoop fuel .invalid rest { res with fragment := some (.static t) } last qk
    | .placeholder i =>
      parseLoop fuel .invalid rest { res with fragment := some (.param i) } last qk
  | _ + 1, .invalid, _ :: _, _, _, _ => .error "parse failed: the url has an invalid extra token"

/-- The Go `parse` function: tokenize, then run the state machine.  The
fuel strictly exceeds the iteration count of every terminating run (each
iteration either consumes a token or strictly advances the step rank, and
the rank is bounded by 9). -/
def parse (pattern : String) : Outcome ParseResult :=
  let toks := tokenize pattern
  parseLoop (9 * toks.length + 10) .protocol toks {} "" ""

/-! ### Endpoint override (`Opt` and `overwrite`). -/

/-- The custom formatter options record. -/
structure Opt where
  Hostname : String := ""
  Port : Nat := 0
  Protocol : String := ""
  Username : String := ""
  Password : String := ""

/-- Word character of Go regexp `\w`. -/
def isWordChar (c : Char) : Bool := c.isAlphanum ∨ c = '_'

/-- Match of the optional `\w+://` protocol group at the start of the
string; returns the word run (without `://`) and the remainder. -/
def protoSplit (s : List Char) : Option (List Char × List Char) :=
  let w := s.takeWhile isWordChar
  let rest := s.drop w.length
  if w.isEmpty then none
  else if rest.take 3 = [':', '/', '/'] then some (w, rest.drop 3)
  else none

/-- Match of the optional `:\d+` port group: the digit run after a leading
colon, when nonempty. -/
def portDigits : List Char → Option (List Char)
  | ':' :: rest =>
    let ds := rest.takeWhile isDigitChar
    if ds.isEmpty then none else some ds
  | _ => none

/-- Character test of `[^:]`. -/
def notColon (c : Char) : Bool := c != ':'

/-- Match of `[^:]+` followed by the optional port group. -/
def hostPort (s : List Char) : Option (List Char × Option (List Char)) :=
  let h := s.takeWhile notColon
  if h.isEmpty then none else some (h, portDigits (s.drop h.length))

/-- Semantics of `hostPattern.FindStringSubmatch`, the anchored regular
expression `(\w+://)? ([^:]+) (:\d+)?` with the backtracking Go performs:
the protocol group is tried first and abandoned when no hostname can follow
it.  Returns the protocol word (without `://`), the hostname, and the port
digits (without `:`); `none` when the whole pattern fails. -/
def findHostMatch (s : List Char) : Option (Option (List Char) × List Char × Option (List Char)) :=
  match protoSplit s with
  | some (w, rest) =>
    match hostPort rest with
    | some (h, p) => some (some w, h, p)
    | none =>
      match hostPort s with
      | some (h, p) => some (none, h, p)
      | none => none
  | none =>
    match hostPort s with
    | some (h, p) => some (none, h, p)
    | none => none

/-- The `opt.Hostname` branch of `overwrite`.  When the regular expression
does not match, `FindStringSubmatch` returns a nil slice and the Go code
panics on `match[1]`. -/
def hostnameOverride (r : ParseResult) (hn : String) : Outcome ParseResult :=
  match findHostMatch hn.data with
  | none => .panicked
  | some (protoOpt, h, portOpt) =>
    let r1 :=
      match protoOpt with
      | some w => { r with protocol := some (.static ⟨w⟩) }
      | none => r
    let r2 := { r1 with hostname := some (.static ⟨h⟩) }
    match portOpt with
    | none => .ok r2
    | some ds =>
      match goParseUint16 ⟨ds⟩ with
      | none => .error "parse failed: invalid port number"
      | some p => .ok { r2 with port := some (.static p) }

/-- The Go `overwrite` function: copy the template and replace at most the
protocol, hostname, port and credentials. -/
def overwrite (src : ParseResult) (opt : Opt) : Outcome ParseResult :=
  let r0 : ParseResult :=
    { protocol := src.protocol, hostname := src.hostname, port := src.port,
      paths := src.paths, queries := src.queries, fragment := src.fragment,
      username := "", password := "" }
  (if opt.Hostname ≠ "" then hostnameOverride r0 opt.Hostname else .ok r0).bind fun r1 =>
  let r2 := if opt.Protocol ≠ "" then { r1 with protocol := some (.static opt.Protocol) } else r1
  let r3 := if opt.Port ≠ 0 then { r2 with port := some (.static opt.Port) } else r2
  if opt.Username ≠ "" ∧ opt.Password ≠ "" then
    .ok { r3 with username := opt.Username, password := opt.Password }
  else if opt.Username ≠ "" ∨ opt.Password ≠ "" then
    .error "parse failed: both username and password must be set"
  else .ok r3

/-! ### Substitution engine (the closure body of `TryCustomFormatter`). -/

/-- Positional argument access: Go `args[i]` panics when the index is out
of range. -/
def getArg (args : List Value) (i : Nat) : Outcome Value :=
  match args[i]? with
  | some v => .ok v
  | none => .panicked

/-- The Scheme block: resolve the protocol slot. -/
def schemeStep (p : Option (part String)) (args : List Value) : Outcome String :=
  match p with
  | none => .ok ""
  | some (.static v) => .ok v
  | some (.param i) =>
    (getArg args i).bind fun v =>
      match v with
      | .str s => .ok s
      | .strPtr s => .ok s
      | .nil => .ok ""
      | _ => .error "format failed: invalid protocol value"

/-- The Host block: resolve the hostname slot; a nil argument also clears
the scheme resolved so far.  Returns (scheme, host). -/
def hostStep (h : Option (part String)) (args : List Value) (scheme : String) :
    Outcome (String × String) :=
  match h with
  | none => .ok (scheme, "")
  | some (.static v) => .ok (scheme, v)
  | some (.param i) =>
    (getArg args i).bind fun v =>
      match v with
      | .str s => .ok (scheme, s)
      | .strPtr s => .ok (scheme, s)
      | .nil => .ok ("", "")
      | _ => .error "format failed: invalid hostname value"

/-- The Port block: append `:port` to a nonempty host; skipped entirely
when the host is empty. -/
def portStep (po : Option (part Nat)) (args : List Value) (host : String) : Outcome String :=
  match po with
  | none => .ok host
  | some p =>
    if host = "" then .ok host
    else
      match p with
      | .static v => .ok (host ++ ":" ++ itoa (Int.ofNat v))
      | .param i =>
        (getArg args i).bind fun v =>
          match v with
          | .int n => .ok (host ++ ":" ++ itoa n)
          | .intPtr n => .ok (host ++ ":" ++ itoa n)
          | .nil => .ok host
          | _ => .error "format failed: invalid port value"

/-- Path contribution of one slice element (inside the reflect loop a `/`
is prefixed; nil and unrecognized element types contribute nothing). -/
def listElemSeg : Value → List String
  | .str s => ["/" ++ s]
  | .strPtr s => ["/" ++ s]
  | .int n => ["/" ++ itoa n]
  | .intPtr n => ["/" ++ itoa n]
  | _ => []

/-- Path contribution of one path part (the body of the `t.paths` loop;
unrecognized non-slice argument types are silently skipped). -/
def pathOne (args : List Value) (p : part String) : Outcome (List String) :=
  match p with
  | .static v => .ok [v]
  | .param i =>
    (getArg args i).bind fun v =>
      match v with
      | .str s => .ok [s]
      | .strPtr s => .ok [s]
      | .int n => .ok [itoa n]
      | .intPtr n => .ok [itoa n]
      | .nil => .ok []
      | .list l => .ok (l.flatMap listElemSeg)
      | _ => .ok []

/-- The `t.paths` loop: ordered collection of raw path chunks. -/
def pathsStep (ps : List (part String)) (args : List Value) : Outcome (List String) :=
  match ps with
  | [] => .ok []
  | p :: rest =>
    (pathOne args p).bind fun s =>
      (pathsStep rest args).bind fun ss => .ok (s ++ ss)

/-- The slice branch of `updateQuery`: the element at index 0 overwrites
via `Set`, later elements append via `Add`; nil elements and unrecognized
element types are skipped (the index still advances). -/
def applyQueryList (k : String) : Nat → List Value → Values → Values
  | _, [], q => q
  | i, v :: rest, q =>
    match v with
    | .str s => applyQueryList k (i + 1) rest (if i = 0 then q.set k s else q.add k s)
    | .strPtr s => applyQueryList k (i + 1) rest (if i = 0 then q.set k s else q.add k s)
    | .int n =>
      applyQueryList k (i + 1) rest (if i = 0 then q.set k (itoa n) else q.add k (itoa n))
    | .intPtr n =>
      applyQueryList k (i + 1) rest (if i = 0 then q.set k (itoa n) else q.add k (itoa n))
    | _ => applyQueryList k (i + 1) rest q

/-- The Go `updateQuery` closure: bind one argument value under a key.  A
nil value contributes nothing; a non-slice unrecognized type is an error. -/
def updateQuery (k : String) (v : Value) (q : Values) : Outcome Values :=
  match v with
  | .str s => .ok (q.add k s)
  | .strPtr s => .ok (q.add k s)
  | .int n => .ok (q.add k (itoa n))
  | .intPtr n => .ok (q.add k (itoa n))
  | .nil => .ok q
  | .list l => .ok (applyQueryList k 0 l q)
  | _ => .error "format failed: query value must be string, int, nil, or a slice"

/-- Merge of a `url.Values` argument bound to a query-set placeholder: each
key's value list is bound via `updateQuery` (the iteration order of the Go
map does not affect the encoded output, since keys are distinct and the
encoding sorts them). -/
def applyQuerySet : List (String × List String) → Values → Outcome Values
  | [], q => .ok q
  | (k, vs) :: rest, q =>
    (updateQuery k (.list (vs.map .str)) q).bind (applyQuerySet rest)

/-- The body of the `t.queries` loop for one entry. -/
def queryStepOne (args : List Value) (e : QueryPart) (q : Values) : Outcome Values :=
  match e.value with
  | .static v => .ok (q.add e.key v)
  | .param i =>
    if e.key ≠ "" then (getArg args i).bind fun a => updateQuery e.key a q
    else
      (getArg args i).bind fun a =>
        match a with
        | .values vs => applyQuerySet vs q
        | _ => .error "format failed: query set must be url.Values"

/-- The `t.queries` loop. -/
def queriesStep (qs : List QueryPart) (args : List Value) (q : Values) : Outcome Values :=
  match qs with
  | [] => .ok q
  | e :: rest => (queryStepOne args e q).bind fun q2 => queriesStep rest args q2

/-- The Fragment block. -/
def fragmentStep (f : Option (part String)) (args : List Value) : Outcome String :=
  match f with
  | none => .ok ""
  | some (.static v) => .ok v
  | some (.param i) =>
    (getArg args i).bind fun v =>
      match v with
      | .str s => .ok s
      | .strPtr s => .ok s
      | .nil => .ok ""
      | _ => .error "format failed: fragment must be a string"

/-- One step of the final path-concatenation loop: a chunk starting with
`/` appended to a path ending in `/` drops one of the two slashes. -/
def pathJoin (acc p : List Char) : List Char :=
  if acc.getLast? = some '/' ∧ p.head? = some '/' then acc ++ p.drop 1 else acc ++ p

/-- The final `r.Path` string built from the collected chunks. -/
def joinPaths (ps : List String) : String :=
  ⟨(ps.map String.data).foldl pathJoin []⟩

/-- The closure body of `TryCustomFormatter` after parsing and overriding:
build the structured URL record. -/
def buildURL (t : ParseResult) (args : List Value) : Outcome URLRec :=
  (schemeStep t.protocol args).bind fun scheme0 =>
  (hostStep t.hostname args scheme0).bind fun sh =>
  (portStep t.port args sh.2).bind fun host =>
  (pathsStep t.paths args).bind fun paths =>
  (queriesStep t.queries args []).bind fun q =>
  (fragmentStep t.fragment args).bind fun frag =>
  .ok { scheme := sh.1, host := host, userSet := t.username != "",
        username := t.username, password := t.password,
        path := joinPaths paths, rawQuery := Values.encode q, fragment := frag }

/-- The full formatter up to the structured record: parse (the cache is
observably the identity, since `parse` is deterministic), override, bind. -/
def tryBuild (format : String) (opt : Opt) (args : List Value) : Outcome URLRec :=
  (parse format).bind fun ot => (overwrite ot opt).bind fun t => buildURL t args

/-- The function returned by `TryCustomFormatter o`, applied to a template
and arguments. -/
def tryFormat (opt : Opt) (format : String) (args : List Value) : Outcome String :=
  (tryBuild format opt args).map' URLRec.render

/-- The Go `TryUrlf` function. -/
def tryUrlf (format : String) (args : List Value) : Outcome String :=
  tryFormat {} format args

/-! ### Auxiliary definitions used in claim statements. -/

/-- Splitting of a character list at every `/` (the semantics of Go
`strings.Split(s, "/")`), used to build the list argument that the
specification calls "the string split on `/`". -/
def splitSlash : List Char → List (List Char)
  | [] => [[]]
  | c :: rest =>
    if c = '/' then [] :: splitSlash rest
    else
      match splitSlash rest with
      | [] => [[c]]
      | seg :: segs => (c :: seg) :: segs

/-- Truth value of a character list containing no two adjacent slashes. -/
def noDoubleSlash : List Char → Bool
  | [] => true
  | [_] => true
  | a :: b :: rest => !(a = '/' ∧ b = '/') && noDoubleSlash (b :: rest)

/-- The list argument equivalent to a path string under the split-on-slash
reading of the specification. -/
def splitArg (s : String) : Value :=
  .list ((splitSlash s.data).map (fun seg => .str ⟨seg⟩))

/-! ## Lemmas -/

@[simp] theorem Outcome.bind_ok_left {α β : Type} (v : α) (f : α → Outcome β) :
    (Outcome.ok v).bind f = f v := rfl

@[simp] theorem Outcome.bind_error_left {α β : Type} (e : String) (f : α → Outcome β) :
    (Outcome.error e).bind f = .error e := rfl

@[simp] theorem Outcome.bind_panicked_left {α β : Type} (f : α → Outcome β) :
    (Outcome.panicked : Outcome α).bind f = .panicked := rfl

@[simp] theorem Outcome.bind_diverged_left {α β : Type} (f : α → Outcome β) :
    (Outcome.diverged : Outcome α).bind f = .diverged := rfl

theorem Outcome.bind_eq_ok {α β : Type} {x : Outcome α} {f : α → Outcome β} {c : β} :
    x.bind f = .ok c ↔ ∃ b, x = .ok b ∧ f b = .ok c := by
  cases x <;> simp [Outcome.bind]

theorem Outcome.bind_assoc {α β γ : Type} (x : Outcome α) (f : α → Outcome β)
    (g : β → Outcome γ) : (x.bind f).bind g = x.bind fun a => (f a).bind g := by
  cases x <;> rfl

theorem queriesStep_append (a b : List QueryPart) (args : List Value) (q : Values) :
    queriesStep (a ++ b) args q
      = (queriesStep a args q).bind fun q2 => queriesStep b args q2 := by
  induction a generalizing q with
  | nil => simp [queriesStep]
  | cons e rest ih =>
    simp only [List.cons_append, queriesStep]
    cases hq : queryStepOne args e q <;> simp [Outcome.bind, ih]

theorem pathsStep_append (a b : List (part String)) (args : List Value) :
    pathsStep (a ++ b) args
      = (pathsStep a args).bind fun s1 => (pathsStep b args).bind fun s2 => .ok (s1 ++ s2) := by
  induction a with
  | nil =>
    simp only [List.nil_append, pathsStep, Outcome.bind_ok_left]
    cases pathsStep b args <;> simp [Outcome.bind]
  | cons p rest ih =>
    simp [pathsStep, ih, Outcome.bind_assoc, List.append_assoc]

theorem Values.get_set_self (q : Values) (k v : String) :
    (q.set k v).get k = [v] := by
  induction q with
  | nil => simp [Values.set, Values.get]
  | cons e rest ih =>
    obtain ⟨k', vs⟩ := e
    by_cases h : k' = k <;> simp [Values.set, Values.get, h, ih]

theorem Values.get_add_self (q : Values) (k v : String) :
    (q.add k v).get k = q.get k ++ [v] := by
  induction q with
  | nil => simp [Values.add, Values.get]
  | cons e rest ih =>
    obtain ⟨k', vs⟩ := e
    by_cases h : k' = k <;> simp [Values.add, Values.get, h, ih]

theorem Values.get_set_ne (q : Values) {k' k : String} (h : k' ≠ k) (v : String) :
    (q.set k' v).get k = q.get k := by
  induction q with
  | nil => simp [Values.set, Values.get, h]
  | cons e rest ih =>
    obtain ⟨k0, vs⟩ := e
    by_cases h0 : k0 = k'
    · subst h0; simp [Values.set, Values.get, h]
    · simp [Values.set, Values.get, h0, ih]

theorem Values.get_add_ne (q : Values) {k' k : String} (h : k' ≠ k) (v : String) :
    (q.add k' v).get k = q.get k := by
  induction q with
  | nil => simp [Values.add, Values.get, h]
  | cons e rest ih =>
    obtain ⟨k0, vs⟩ := e
    by_cases h0 : k0 = k'
    · subst h0; simp [Values.add, Values.get, h]
    · simp [Values.add, Values.get, h0, ih]

theorem applyQueryList_get_ne {k' k : String} (h : k' ≠ k) :
    ∀ (i : Nat) (l : List Value) (q : Values), (applyQueryList k' i l q).get k = q.get k := by
  intro i l
  induction l generalizing i with
  | nil => intro q; simp [applyQueryList]
  | cons v rest ih =>
    intro q
    cases v <;>
      simp only [applyQueryList, ih] <;>
      split <;> simp [Values.get_set_ne _ h, Values.get_add_ne _ h]

theorem updateQuery_get_ne {k' k : String} (h : k' ≠ k) {v : Value} {q q2 : Values}
    (hu : updateQuery k' v q = .ok q2) : q2.get k = q.get k := by
  cases v with
  | str s =>
    simp only [updateQuery, Outcome.ok.injEq] at hu
    subst hu; exact Values.get_add_ne _ h _
  | strPtr s =>
    simp only [updateQuery, Outcome.ok.injEq] at hu
    subst hu; exact Values.get_add_ne _ h _
  | int n =>
    simp only [updateQuery, Outcome.ok.injEq] at hu
    subst hu; exact Values.get_add_ne _ h _
  | intPtr n =>
    simp only [updateQuery, Outcome.ok.injEq] at hu
    subst hu; exact Values.get_add_ne _ h _
  | nil =>
    simp only [updateQuery, Outcome.ok.injEq] at hu
    subst hu; rfl
  | list l =>
    simp only [updateQuery, Outcome.ok.injEq] at hu
    subst hu; exact applyQueryList_get_ne h 0 l q
  | values vs =>
    simp only [updateQuery] at hu
    exact Outcome.noConfusion hu
  | other =>
    simp only [updateQuery] at hu
    exact Outcome.noConfusion hu

theorem applyQuerySet_get_ne {k : String} :
    ∀ {vs : List (String × List String)} {q q2 : Values},
      (∀ e ∈ vs, e.1 ≠ k) → applyQuerySet vs q = .ok q2 → q2.get k = q.get k := by
  intro vs
  induction vs with
  | nil => intro q q2 _ h; cases h; rfl
  | cons e rest ih =>
    intro q q2 hne h
    obtain ⟨k1, vs1⟩ := e
    simp only [applyQuerySet] at h
    rw [Outcome.bind_eq_ok] at h
    obtain ⟨q1, h1, h2⟩ := h
    rw [ih (fun e he => hne e (List.mem_cons_of_mem _ he)) h2,
      updateQuery_get_ne (hne _ (List.mem_cons_self _ _)) h1]

theorem queryStepOne_get_ne {k : String} {args : List Value} {e : QueryPart} {q q2 : Values}
    (hk : e.key ≠ k) (hk0 : e.key ≠ "")
    (h : queryStepOne args e q = .ok q2) : q2.get k = q.get k := by
  obtain ⟨key, val⟩ := e
  cases val with
  | static v =>
    simp only [queryStepOne] at h
    cases h
    exact Values.get_add_ne _ hk _
  | param i =>
    simp only [queryStepOne, if_pos hk0] at h
    rw [Outcome.bind_eq_ok] at h
    obtain ⟨a, _, h2⟩ := h
    exact updateQuery_get_ne hk h2

theorem queriesStep_get_ne {k : String} {args : List Value} :
    ∀ {post : List QueryPart} {q q2 : Values},
      (∀ e ∈ post, e.key ≠ k ∧ e.key ≠ "") →
      queriesStep post args q = .ok q2 → q2.get k = q.get k := by
  intro post
  induction post with
  | nil => intro q q2 _ h; cases h; rfl
  | cons e rest ih =>
    intro q q2 hne h
    simp only [queriesStep] at h
    rw [Outcome.bind_eq_ok] at h
    obtain ⟨q1, h1, h2⟩ := h
    rw [ih (fun x hx => hne x (List.mem_cons_of_mem _ hx)) h2,
      queryStepOne_get_ne (hne e (List.mem_cons_self _ _)).1 (hne e (List.mem_cons_self _ _)).2 h1]

theorem queryStepOne_nil {args : List Value} {k : String} {i : Nat} (hk : k ≠ "")
    (hget : getArg args i = .ok .nil) (q : Values) :
    queryStepOne args ⟨k, .param i⟩ q = .ok q := by
  simp [queryStepOne, hk, hget, updateQuery]

theorem buildURL_queries_congr {t : ParseResult} {qs2 : List QueryPart} {args : List Value}
    (h : queriesStep t.queries args [] = queriesStep qs2 args []) :
    buildURL t args = buildURL { t with queries := qs2 } args := by
  simp only [buildURL, h]

theorem queriesStep_skip_nil_entry (pre post : List QueryPart) (args : List Value)
    (k : String) (i : Nat) (q0 : Values) (hk : k ≠ "") (hnil : getArg args i = .ok .nil) :
    queriesStep (pre ++ ⟨k, .param i⟩ :: post) args q0 = queriesStep (pre ++ post) args q0 := by
  rw [queriesStep_append, queriesStep_append]
  refine congrArg (Outcome.bind _) (funext fun q2 => ?_)
  simp only [queriesStep, queryStepOne_nil hk hnil q2, Outcome.bind_ok_left]

/-- C1 (code bug evidence): when a parametric slot references an argument
index with no entry in the argument list, the substitution does not return
a `BindingError`.  At `http://example.com/\x7b\x7d` with no arguments the
Go code panics with an index-out-of-range runtime error, and at
`http://\x7b\x7d:\x7b\x7d/x` with the single argument `nil` the port
placeholder's missing index 1 is silently skipped and a URL is produced. -/
theorem c1_missing_argument_panics_not_error :
    tryUrlf "http://example.com/\x7b\x7d" [] = .panicked ∧
    tryUrlf "http://\x7b\x7d:\x7b\x7d/x" [Value.nil] = .ok "/x" :=
  ⟨by decide, by decide⟩

/-- C3 (counterexample): in `/x?key=old&key=\x7b\x7d` the static entry
`key=old` precedes a query value placeholder for the same key; binding
`nil` to the placeholder does not remove the key `key` from the output —
the static entry survives, contradicting the claim that the key is removed
entirely. -/
theorem c3_null_keeps_earlier_static_entry :
    tryUrlf "/x?key=old&key=\x7b\x7d" [Value.nil] = .ok "/x?key=old" ∧
    "/x?key=old" ≠ "/x" :=
  ⟨by decide, by decide⟩

/-- C3 (amended): binding a null argument to a query value placeholder for
a literal key `k` contributes nothing to the query: the output is exactly
that of the template with this query entry deleted.  Hence the key is
absent only when no other entry (such as an earlier static `k=old`)
produces it. -/
theorem c3_amended_null_query_value_is_noop (t : ParseResult) (args : List Value)
    (pre post : List QueryPart) (k : String) (i : Nat)
    (hq : t.queries = pre ++ ⟨k, .param i⟩ :: post)
    (hk : k ≠ "") (hnil : getArg args i = .ok .nil) :
    buildURL t args = buildURL { t with queries := pre ++ post } args := by
  apply buildURL_queries_congr
  rw [hq, queriesStep_skip_nil_entry pre post args k i [] hk hnil]

/-- Witness for the amended C3 at a concrete input: the template model of
`/x?key=old&key=\x7b\x7d` with argument `nil` formats exactly like the one
of `/x?key=old`. -/
theorem c3_amended_null_query_value_is_noop_witness :
    buildURL
        { paths := [.static "/x"],
          queries := [⟨"key", .static "old"⟩, ⟨"key", .param 0⟩] } [Value.nil]
      = buildURL
        { paths := [.static "/x"], queries := [⟨"key", .static "old"⟩] } [Value.nil] :=
  c3_amended_null_query_value_is_noop
    { paths := [.static "/x"], queries := [⟨"key", .static "old"⟩, ⟨"key", .param 0⟩] }
    [Value.nil] [⟨"key", .static "old"⟩] [] "key" 0 rfl (by decide) rfl

/-- C6: with a static entry `k=old` anywhere before a query value
placeholder for the same key `k`, binding the list `[a, b, c]` to the
placeholder leaves exactly the values `[a, b, c]` stored under `k` (the
element at index 0 overwrites every existing value via `Set`, later
elements append via `Add`), provided no later entry touches `k`; and a nil
list element is skipped (the element index still advances). -/
theorem c6_query_list_overwrites_then_appends (qs : List QueryPart) (args : List Value)
    (pre mid post : List QueryPart) (k old a b c : String) (i : Nat) (q2 : Values)
    (hqs : qs = pre ++ ⟨k, .static old⟩ :: mid ++ ⟨k, .param i⟩ :: post)
    (hk : k ≠ "")
    (hget : getArg args i = .ok (.list [.str a, .str b, .str c]))
    (hpost : ∀ e ∈ post, e.key ≠ k ∧ e.key ≠ "")
    (hrun : queriesStep qs args [] = .ok q2) :
    Values.get q2 k = [a, b, c] ∧
      ∀ (k2 : String) (i2 : Nat) (rest2 : List Value) (q3 : Values),
        applyQueryList k2 i2 (Value.nil :: rest2) q3 = applyQueryList k2 (i2 + 1) rest2 q3 := by
  refine ⟨?_, fun k2 i2 rest2 q3 => rfl⟩
  subst hqs
  have hassoc : pre ++ ⟨k, .static old⟩ :: mid ++ ⟨k, .param i⟩ :: post
      = (pre ++ ⟨k, .static old⟩ :: mid) ++ ⟨k, .param i⟩ :: post := by simp
  rw [hassoc, queriesStep_append, Outcome.bind_eq_ok] at hrun
  obtain ⟨qA, _, hrun2⟩ := hrun
  have hone : queryStepOne args ⟨k, .param i⟩ qA = .ok (((qA.set k a).add k b).add k c) := by
    simp [queryStepOne, hk, hget, updateQuery, applyQueryList]
  simp only [queriesStep, hone, Outcome.bind_ok_left] at hrun2
  rw [queriesStep_get_ne hpost hrun2, Values.get_add_self, Values.get_add_self,
    Values.get_set_self]
  simp

/-- Witness for C6 at the concrete input of the test suite:
`?key=old&key=\x7b\x7d` bound to `["a","b","c"]` stores exactly
`["a","b","c"]` under `key`. -/
theorem c6_query_list_overwrites_then_appends_witness :
    Values.get [("key", ["a", "b", "c"])] "key" = ["a", "b", "c"] :=
  (c6_query_list_overwrites_then_appends
    [⟨"key", .static "old"⟩, ⟨"key", .param 0⟩]
    [Value.list [.str "a", .str "b", .str "c"]]
    [] [] [] "key" "old" "a" "b" "c" 0 [("key", ["a", "b", "c"])]
    rfl (by decide) rfl (by simp) (by decide)).1

theorem buildURL_eq_ok {t : ParseResult} {args : List Value} {u : URLRec} :
    buildURL t args = .ok u ↔
      ∃ s0 sh host paths q frag,
        schemeStep t.protocol args = .ok s0 ∧
        hostStep t.hostname args s0 = .ok sh ∧
        portStep t.port args sh.2 = .ok host ∧
        pathsStep t.paths args = .ok paths ∧
        queriesStep t.queries args [] = .ok q ∧
        fragmentStep t.fragment args = .ok frag ∧
        u = { scheme := sh.1, host := host, userSet := t.username != "",
              username := t.username, password := t.password,
              path := joinPaths paths, rawQuery := Values.encode q, fragment := frag } := by
  simp only [buildURL, Outcome.bind_eq_ok, Outcome.ok.injEq]
  constructor
  · rintro ⟨s0, h1, sh, h2, host, h3, paths, h4, q, h5, frag, h6, h7⟩
    exact ⟨s0, sh, host, paths, q, frag, h1, h2, h3, h4, h5, h6, h7.symm⟩
  · rintro ⟨s0, sh, host, paths, q, frag, h1, h2, h3, h4, h5, h6, h7⟩
    exact ⟨s0, h1, sh, h2, host, h3, paths, h4, q, h5, frag, h6, h7.symm⟩

theorem portStep_empty_host (po : Option (part Nat)) (args : List Value) :
    portStep po args "" = .ok "" := by
  cases po <;> simp [portStep]

/-- C4: null omission for single-valued slots.  Binding null to a
parametric hostname omits the hostname and clears the scheme, even when the
protocol slot was static or already bound, so the record has neither scheme
nor host; binding null to a parametric protocol, port, or fragment behaves
exactly as if that slot were absent, leaving everything else unchanged. -/
theorem c4_null_omission (t : ParseResult) (args : List Value) (u : URLRec) (i : Nat) :
    (t.hostname = some (.param i) → getArg args i = .ok .nil →
      buildURL t args = .ok u → u.scheme = "" ∧ u.host = "") ∧
    (t.protocol = some (.param i) → getArg args i = .ok .nil →
      buildURL t args = buildURL { t with protocol := none } args) ∧
    (t.port = some (.param i) → getArg args i = .ok .nil →
      buildURL t args = buildURL { t with port := none } args) ∧
    (t.fragment = some (.param i) → getArg args i = .ok .nil →
      buildURL t args = buildURL { t with fragment := none } args) := by
  refine ⟨?_, ?_, ?_, ?_⟩
  · intro hh hnil hb
    rw [buildURL_eq_ok] at hb
    obtain ⟨s0, sh, host, paths, q, frag, h1, h2, h3, _, _, _, hu⟩ := hb
    rw [hh] at h2
    simp only [hostStep, hnil, Outcome.bind_ok_left, Outcome.ok.injEq] at h2
    rw [← h2] at h3
    rw [portStep_empty_host] at h3
    cases h3
    rw [hu, ← h2]
    exact ⟨rfl, rfl⟩
  · intro hp hnil
    have h1 : schemeStep t.protocol args = .ok "" := by
      rw [hp]; simp [schemeStep, hnil]
    have h2 : schemeStep ({ t with protocol := none } : ParseResult).protocol args = .ok "" := rfl
    simp only [buildURL, h1, h2]
  · intro hp hnil
    have h1 : ∀ h, portStep t.port args h = .ok h := by
      intro h; rw [hp]
      by_cases hcase : h = ""
      · subst hcase; exact portStep_empty_host _ args
      · simp [portStep, hcase, hnil]
    have h2 : ∀ h, portStep ({ t with port := none } : ParseResult).port args h = .ok h :=
      fun h => rfl
    simp only [buildURL, h1, h2]
  · intro hf hnil
    have h1 : fragmentStep t.fragment args = .ok "" := by
      rw [hf]; simp [fragmentStep, hnil]
    have h2 : fragmentStep ({ t with fragment := none } : ParseResult).fragment args = .ok "" :=
      rfl
    simp only [buildURL, h1, h2]

/-- Witness for C4 at concrete inputs: a null hostname argument empties
scheme and host even under a static `http` protocol; null protocol, port
and fragment arguments each format exactly as if the slot were absent. -/
theorem c4_null_omission_witness :
    (URLRec.scheme { scheme := "", host := "", userSet := false, username := "",
                     password := "", path := "/p", rawQuery := "", fragment := "" } = "" ∧
      URLRec.host { scheme := "", host := "", userSet := false, username := "",
                    password := "", path := "/p", rawQuery := "", fragment := "" } = "") ∧
    buildURL { protocol := some (.param 0), hostname := some (.static "h") } [Value.nil]
      = buildURL { protocol := none, hostname := some (.static "h") } [Value.nil] ∧
    buildURL { hostname := some (.static "h"), port := some (.param 0) } [Value.nil]
      = buildURL { hostname := some (.static "h"), port := none } [Value.nil] ∧
    buildURL { fragment := some (.param 0) } [Value.nil]
      = buildURL { fragment := none } [Value.nil] := by
  refine ⟨?_, ?_, ?_, ?_⟩
  · exact (c4_null_omission
      { protocol := some (.static "http"), hostname := some (.param 0),
        paths := [.static "/p"] } [Value.nil]
      { scheme := "", host := "", userSet := false, username := "", password := "",
          path := "/p", rawQuery := "", fragment := "" } 0).1 rfl rfl (by decide)
  · exact (c4_null_omission
      { protocol := some (.param 0), hostname := some (.static "h") } [Value.nil]
      {} 0).2.1 rfl rfl
  · exact (c4_null_omission
      { hostname := some (.static "h"), port := some (.param 0) } [Value.nil]
      {} 0).2.2.1 rfl rfl
  · exact (c4_null_omission { fragment := some (.param 0) } [Value.nil] {} 0).2.2.2 rfl rfl

/-- C9: whenever the port slot is present but the hostname resolves to the
empty string (hostname slot absent, bound to null, or bound to an empty
string), the `r.Host != ""` guard skips the port entirely, so the host
component of the result is empty even though a port value was available. -/
theorem c9_port_skipped_on_empty_host (t : ParseResult) (args : List Value) (u : URLRec)
    (po : part Nat) (_hport : t.port = some po)
    (hempty : t.hostname = none ∨ t.hostname = some (.static "") ∨
      ∃ i, t.hostname = some (.param i) ∧
        (getArg args i = .ok .nil ∨ getArg args i = .ok (.str "") ∨
          getArg args i = .ok (.strPtr "")))
    (hb : buildURL t args = .ok u) : u.host = "" := by
  rw [buildURL_eq_ok] at hb
  obtain ⟨s0, sh, host, paths, q, frag, h1, h2, h3, _, _, _, hu⟩ := hb
  have hsh : sh.2 = "" := by
    rcases hempty with h | h | ⟨i, h, hv⟩
    · rw [h] at h2; cases h2; rfl
    · rw [h] at h2; cases h2; rfl
    · rw [h] at h2
      rcases hv with hv | hv | hv <;>
        simp only [hostStep, hv, Outcome.bind_ok_left, Outcome.ok.injEq] at h2 <;>
        rw [← h2]
  rw [hsh, portStep_empty_host] at h3
  cases h3
  rw [hu]

/-- Witness for C9 at a concrete input: `http://\x7b\x7d:8080/p` with a
null hostname produces an empty host, with the static port 8080 dropped. -/
theorem c9_port_skipped_on_empty_host_witness :
    URLRec.host { scheme := "", host := "", userSet := false, username := "", password := "",
                  path := "/p", rawQuery := "", fragment := "" } = "" :=
  c9_port_skipped_on_empty_host
    { protocol := some (.static "http"), hostname := some (.param 0),
      port := some (.static 8080), paths := [.static "/p"] } [Value.nil]
    { scheme := "", host := "", userSet := false, username := "", password := "",
        path := "/p", rawQuery := "", fragment := "" }
    (.static 8080) rfl (Or.inr (Or.inr ⟨0, rfl, Or.inl rfl⟩)) (by decide)

theorem hostnameOverride_frame {r : ParseResult} {hn : String} {r2 : ParseResult}
    (h : hostnameOverride r hn = .ok r2) :
    r2.paths = r.paths ∧ r2.queries = r.queries ∧ r2.fragment = r.fragment := by
  unfold hostnameOverride at h
  rcases hm : findHostMatch hn.data with _ | ⟨protoOpt, hh, portOpt⟩
  · rw [hm] at h; exact Outcome.noConfusion h
  · rw [hm] at h
    dsimp only at h
    rcases protoOpt with _ | w <;> rcases portOpt with _ | ds <;> dsimp only at h
    · cases h; exact ⟨rfl, rfl, rfl⟩
    · rcases hp : goParseUint16 ⟨ds⟩ with _ | p <;> rw [hp] at h
      · exact Outcome.noConfusion h
      · cases h; exact ⟨rfl, rfl, rfl⟩
    · cases h; exact ⟨rfl, rfl, rfl⟩
    · rcases hp : goParseUint16 ⟨ds⟩ with _ | p <;> rw [hp] at h
      · exact Outcome.noConfusion h
      · cases h; exact ⟨rfl, rfl, rfl⟩

/-- C8: `overwrite` returns a new record whose `paths`, `queries` and
`fragment` are exactly those of the source template; only the protocol,
hostname, port, username and password fields can differ.  In the embedding
`overwrite` is a pure function of its arguments, so the source template (in
particular the cached one) is never modified. -/
theorem c8_overwrite_preserves_paths_queries_fragment (src : ParseResult) (opt : Opt)
    (r : ParseResult) (h : overwrite src opt = .ok r) :
    r.paths = src.paths ∧ r.queries = src.queries ∧ r.fragment = src.fragment := by
  unfold overwrite at h
  rw [Outcome.bind_eq_ok] at h
  obtain ⟨r1, h1, h2⟩ := h
  have hr1 : r1.paths = src.paths ∧ r1.queries = src.queries ∧ r1.fragment = src.fragment := by
    by_cases hh : opt.Hostname ≠ ""
    · rw [if_pos hh] at h1
      have h3 := hostnameOverride_frame h1
      exact h3
    · rw [if_neg hh] at h1; cases h1; exact ⟨rfl, rfl, rfl⟩
  dsimp only at h2
  split_ifs at h2 <;> first
  | exact Outcome.noConfusion h2
  | (cases h2; exact ⟨hr1.1, hr1.2.1, hr1.2.2⟩)

/-- Witness for C8 at a concrete input: overriding protocol and port
leaves paths, queries and fragment exactly as in the source template. -/
theorem c8_overwrite_preserves_paths_queries_fragment_witness :
    ParseResult.paths { protocol := some (.static "s3"), port := some (.static 8080),
                        paths := [.static "/p"], queries := [⟨"k", .static "v"⟩],
                        fragment := some (.static "f") }
        = ParseResult.paths { paths := [.static "/p"], queries := [⟨"k", .static "v"⟩],
                              fragment := some (.static "f"),
                              protocol := some (.static "http") } ∧
      ParseResult.queries { protocol := some (.static "s3"), port := some (.static 8080),
                            paths := [.static "/p"], queries := [⟨"k", .static "v"⟩],
                            fragment := some (.static "f") }
        = ParseResult.queries { paths := [.static "/p"], queries := [⟨"k", .static "v"⟩],
                                fragment := some (.static "f"),
                                protocol := some (.static "http") } ∧
      ParseResult.fragment { protocol := some (.static "s3"), port := some (.static 8080),
                             paths := [.static "/p"], queries := [⟨"k", .static "v"⟩],
                             fragment := some (.static "f") }
        = ParseResult.fragment { paths := [.static "/p"], queries := [⟨"k", .static "v"⟩],
                                 fragment := some (.static "f"),
                                 protocol := some (.static "http") } :=
  c8_overwrite_preserves_paths_queries_fragment
    { paths := [.static "/p"], queries := [⟨"k", .static "v"⟩],
      fragment := some (.static "f"), protocol := some (.static "http") }
    { Protocol := "s3", Port := 8080 }
    { protocol := some (.static "s3"), port := some (.static 8080),
      paths := [.static "/p"], queries := [⟨"k", .static "v"⟩],
      fragment := some (.static "f") }
    (by decide)


theorem takeWhile_append_of_all {α} (p : α → Bool) (l r : List α) (h : l.all p = true) :
    (l ++ r).takeWhile p = l ++ r.takeWhile p := by
  induction l with
  | nil => simp
  | cons a as ih =>
    simp only [List.all_cons, Bool.and_eq_true] at h
    simp [List.takeWhile_cons, h.1, ih h.2]

theorem takeWhile_of_all {α} (p : α → Bool) (l : List α) (h : l.all p = true) :
    l.takeWhile p = l := by
  have h2 := takeWhile_append_of_all p l [] h
  simpa using h2

theorem takeWhile_stop {α} (p : α → Bool) (l : List α) (h : l.all p = false) :
    ∃ c t, l = l.takeWhile p ++ c :: t ∧ p c = false ∧ (l.takeWhile p).all p = true := by
  induction l with
  | nil => simp at h
  | cons a as ih =>
    by_cases ha : p a
    · simp only [List.all_cons, ha, Bool.true_and] at h
      obtain ⟨c, t, h1, h2, h3⟩ := ih h
      refine ⟨c, t, ?_, h2, ?_⟩
      · simp only [List.takeWhile_cons, if_pos ha, List.cons_append]
        rw [← h1]
      · simp [List.takeWhile_cons, ha, h3]
    · simp only [Bool.not_eq_true] at ha
      exact ⟨a, as, by simp [List.takeWhile_cons, ha], ha, by simp [List.takeWhile_cons, ha]⟩

theorem isEmpty_false_of_ne_nil {α} {l : List α} (h : l ≠ []) : l.isEmpty = false := by
  cases l with
  | nil => exact absurd rfl h
  | cons a as => rfl

theorem protoSplit_eq_none (s : List Char)
    (hcond : (s.drop (s.takeWhile isWordChar).length).take 3 ≠ [':', '/', '/']) :
    protoSplit s = none := by
  unfold protoSplit
  by_cases he : (s.takeWhile isWordChar).isEmpty
  · simp [he]
  · simp [he, hcond]

theorem findHostMatch_host_port (h ds : List Char) (hh : h ≠ [])
    (hcolon : ∀ c ∈ h, c ≠ ':') (hds : ds ≠ []) (hdig : ds.all isDigitChar = true) :
    findHostMatch (h ++ ':' :: ds) = some (none, h, some ds) := by
  have hallc : h.all notColon = true := by
    simp only [List.all_eq_true]
    intro c hc
    simp [notColon, hcolon c hc]
  have htw : (h ++ ':' :: ds).takeWhile notColon = h := by
    rw [takeWhile_append_of_all _ _ _ hallc]
    simp [List.takeWhile_cons, notColon]
  have hpd : portDigits (':' :: ds) = some ds := by
    simp only [portDigits]
    rw [takeWhile_of_all _ _ hdig, isEmpty_false_of_ne_nil hds]
    simp
  have hhp : hostPort (h ++ ':' :: ds) = some (h, some ds) := by
    unfold hostPort
    rw [htw]
    dsimp only
    rw [isEmpty_false_of_ne_nil hh]
    simp only [Bool.false_eq_true, if_false, List.drop_left]
    rw [hpd]
  have hps : protoSplit (h ++ ':' :: ds) = none := by
    apply protoSplit_eq_none
    by_cases hw : h.all isWordChar
    · have hw2 : (h ++ ':' :: ds).takeWhile isWordChar = h := by
        rw [takeWhile_append_of_all _ _ _ hw]
        simp [List.takeWhile_cons, isWordChar]
      rw [hw2, List.drop_left]
      obtain ⟨d, ds2, rfl⟩ : ∃ d ds2, ds = d :: ds2 := by
        cases ds with
        | nil => exact absurd rfl hds
        | cons d ds2 => exact ⟨d, ds2, rfl⟩
      have hd : isDigitChar d = true := by
        simp only [List.all_cons, Bool.and_eq_true] at hdig
        exact hdig.1
      have hdne : d ≠ '/' := by
        intro hcon
        subst hcon
        simp [isDigitChar] at hd
      simp only [List.take_succ_cons, ne_eq, List.cons.injEq]
      intro hcon
      exact hdne hcon.2.1
    · simp only [Bool.not_eq_true] at hw
      obtain ⟨c, t, hsplit, hc, hallw⟩ := takeWhile_stop isWordChar h hw
      have hs2 : h ++ ':' :: ds = h.takeWhile isWordChar ++ (c :: (t ++ ':' :: ds)) := by
        conv => lhs; rw [hsplit]
        simp [List.append_assoc]
      have hw2 : (h ++ ':' :: ds).takeWhile isWordChar = h.takeWhile isWordChar := by
        rw [hs2, takeWhile_append_of_all _ _ _ hallw]
        simp [List.takeWhile_cons, hc]
      rw [hw2, hs2, List.drop_left]
      have hcne : c ≠ ':' := hcolon c (by rw [hsplit]; simp)
      simp only [List.take_succ_cons, ne_eq, List.cons.injEq]
      intro hcon
      exact hcne hcon.1
  unfold findHostMatch
  rw [hps, hhp]

theorem strData_append (a b : String) : (a ++ b).data = a.data ++ b.data := by
  cases a; cases b; rfl

theorem strData_ne_nil {s : String} (h : s ≠ "") : s.data ≠ [] := by
  intro hd
  apply h
  cases s with
  | mk d => exact congrArg String.mk hd

theorem strMk_data (s : String) : String.mk s.data = s := rfl

/-- C10: an override `Hostname` of the form `host:digits` (host nonempty
and colon-free) decomposes; the digits are parsed with
`ParseUint(..., 10, 16)`, so any value up to 65535 — including 0 — is
accepted as a static port, and larger values are a parse error.  The
template port rule demanding 1–65535 is not applied here. -/
theorem c10_override_port_decomposition (src : ParseResult) (h ds : String)
    (hh : h ≠ "") (hcolon : ∀ c ∈ h.data, c ≠ ':')
    (hds : ds ≠ "") (hdigits : ds.data.all isDigitChar = true) :
    (digitsVal ds.data ≤ 65535 →
      overwrite src { Hostname := h ++ ":" ++ ds }
        = .ok { protocol := src.protocol, hostname := some (.static h),
                port := some (.static (digitsVal ds.data)),
                paths := src.paths, queries := src.queries, fragment := src.fragment,
                username := "", password := "" }) ∧
    (65535 < digitsVal ds.data →
      (overwrite src { Hostname := h ++ ":" ++ ds }).isError = true) := by
  have hdnn : h.data ≠ [] := strData_ne_nil hh
  have dsnn : ds.data ≠ [] := strData_ne_nil hds
  have hd2 : (h ++ ":" ++ ds).data = h.data ++ ':' :: ds.data := by
    rw [strData_append, strData_append]
    simp
  have hne : h ++ ":" ++ ds ≠ "" := by
    intro hc
    have hc2 := congrArg String.data hc
    rw [hd2] at hc2
    simp at hc2
  have hfind : findHostMatch (h ++ ":" ++ ds).data = some (none, h.data, some ds.data) := by
    rw [hd2]
    exact findHostMatch_host_port h.data ds.data hdnn hcolon dsnn hdigits
  have hparse : goParseUint16 ⟨ds.data⟩ = goParseUint16 ds := by rw [strMk_data]
  constructor
  · intro hle
    unfold overwrite
    dsimp only
    rw [if_pos hne]
    unfold hostnameOverride
    rw [hfind]
    dsimp only
    rw [hparse]
    unfold goParseUint16
    rw [isEmpty_false_of_ne_nil dsnn, hdigits]
    simp only [Bool.false_eq_true, false_or, Bool.not_eq_true, if_neg, if_pos hle]
    simp [strMk_data]
  · intro hgt
    unfold overwrite
    dsimp only
    rw [if_pos hne]
    unfold hostnameOverride
    rw [hfind]
    dsimp only
    rw [hparse]
    unfold goParseUint16
    rw [isEmpty_false_of_ne_nil dsnn, hdigits]
    simp only [Bool.false_eq_true, false_or, Bool.not_eq_true, if_neg,
      if_neg (Nat.not_le_of_lt hgt)]
    rfl

/-- Witness for C10 at a concrete input: a decomposed port of 0 (below the
1–65535 template range) is accepted and stored. -/
theorem c10_override_port_decomposition_witness :
    overwrite {} { Hostname := "h" ++ ":" ++ "0" }
      = .ok { protocol := none, hostname := some (.static "h"),
              port := some (.static 0), paths := [], queries := [], fragment := none,
              username := "", password := "" } :=
  (c10_override_port_decomposition {} "h" "0" (by decide) (by decide) (by decide)
    (by decide)).1 (by decide)

/-- C7: with a static token after the `:` port separator, parsing fails
exactly when the token does not parse as an integer (`strconv.Atoi`) or
its value lies outside 1–65535; otherwise the value is stored in the port
slot.  In particular the literals `0` and `65536` fail, while `1` and
`65535` succeed and store the value. -/
theorem c7_static_port_literal_range :
    (∀ (fuel : Nat) (text : String) (rest : List Tok) (res : ParseResult) (last qk : String),
      parseLoop (fuel + 1) .port (Tok.sep ":" :: Tok.static text :: rest) res last qk
        = match goAtoi text with
          | none => .error "parse failed: port must be a number"
          | some n =>
            if n < 1 ∨ n > 65535 then
              .error "parse failed: port number must be in range 1-65535"
            else parseLoop fuel .path rest { res with port := some (.static n.toNat) } "port" qk) ∧
    (parse "http://h:0/").isError = true ∧
    (parse "http://h:65536/").isError = true ∧
    parse "http://h:1/"
      = .ok { protocol := some (.static "http"), hostname := some (.static "h"),
              port := some (.static 1), paths := [.static "/"] } ∧
    parse "http://h:65535/"
      = .ok { protocol := some (.static "http"), hostname := some (.static "h"),
              port := some (.static 65535), paths := [.static "/"] } := by
  refine ⟨?_, by decide, by decide, by decide, by decide⟩
  intro fuel text rest res last qk
  cases hA : goAtoi text with
  | none => simp [parseLoop, hA]
  | some n =>
    by_cases hr : n < 1 ∨ n > 65535 <;> simp [parseLoop, hA, hr]

theorem charListLe_refl : ∀ l : List Char, charListLe l l = true := by
  intro l
  induction l with
  | nil => rfl
  | cons a as ih => simp [charListLe, ih]

theorem charListLe_total : ∀ a b : List Char, charListLe a b = true ∨ charListLe b a = true := by
  intro a
  induction a with
  | nil => intro b; left; rfl
  | cons x xs ih =>
    intro b
    cases b with
    | nil => right; rfl
    | cons y ys =>
      rcases Nat.lt_trichotomy x.toNat y.toNat with hl | he | hg
      · left; simp [charListLe, hl]
      · have hnl : ¬ x.toNat < y.toNat := by omega
        have hnl2 : ¬ y.toNat < x.toNat := by omega
        rcases ih ys with h | h
        · left; simp [charListLe, hnl, hnl2, h]
        · right; simp [charListLe, hnl, hnl2, h]
      · right; simp [charListLe, hg]

theorem charListLe_trans :
    ∀ a b c : List Char, charListLe a b = true → charListLe b c = true →
      charListLe a c = true := by
  intro a
  induction a with
  | nil => intro b c _ _; rfl
  | cons x xs ih =>
    intro b c hab hbc
    cases b with
    | nil => simp [charListLe] at hab
    | cons y ys =>
      cases c with
      | nil => simp [charListLe] at hbc
      | cons z zs =>
        rcases Nat.lt_trichotomy x.toNat y.toNat with h1 | h1 | h1
        · rcases Nat.lt_trichotomy y.toNat z.toNat with h2 | h2 | h2
          · simp [charListLe, show x.toNat < z.toNat by omega]
          · simp [charListLe, show x.toNat < z.toNat by omega]
          · simp [charListLe, show ¬ y.toNat < z.toNat by omega, h2] at hbc
        · rcases Nat.lt_trichotomy y.toNat z.toNat with h2 | h2 | h2
          · simp [charListLe, show x.toNat < z.toNat by omega]
          · have hab2 : charListLe xs ys = true := by
              simpa [charListLe, show ¬ x.toNat < y.toNat by omega,
                show ¬ y.toNat < x.toNat by omega] using hab
            have hbc2 : charListLe ys zs = true := by
              simpa [charListLe, show ¬ y.toNat < z.toNat by omega,
                show ¬ z.toNat < y.toNat by omega] using hbc
            simpa [charListLe, show ¬ x.toNat < z.toNat by omega,
              show ¬ z.toNat < x.toNat by omega] using ih ys zs hab2 hbc2
          · simp [charListLe, show ¬ y.toNat < z.toNat by omega, h2] at hbc
        · simp [charListLe, show ¬ x.toNat < y.toNat by omega, h1] at hab

theorem strLe_refl (a : String) : strLe a a = true := charListLe_refl a.data

theorem strLe_total (a b : String) : strLe a b = true ∨ strLe b a = true :=
  charListLe_total a.data b.data

theorem strLe_trans {a b c : String} (h1 : strLe a b = true) (h2 : strLe b c = true) :
    strLe a c = true :=
  charListLe_trans a.data b.data c.data h1 h2

theorem pairwise_insertSorted (s : String) (l : List String)
    (h : l.Pairwise (fun a b => strLe a b = true)) :
    (insertSorted s l).Pairwise (fun a b => strLe a b = true) := by
  induction l with
  | nil => simp [insertSorted]
  | cons t rest ih =>
    rw [List.pairwise_cons] at h
    simp only [insertSorted]
    by_cases hst : strLe s t = true
    · rw [if_pos hst]
      refine List.Pairwise.cons ?_ (List.Pairwise.cons h.1 h.2)
      intro b hb
      rcases List.mem_cons.mp hb with rfl | hb2
      · exact hst
      · exact strLe_trans hst (h.1 b hb2)
    · rw [if_neg hst]
      have hts : strLe t s = true := by
        rcases strLe_total s t with h2 | h2
        · exact absurd h2 hst
        · exact h2
      refine List.Pairwise.cons ?_ (ih h.2)
      intro b hb
      have hmem : b ∈ s :: rest := by
        clear ih hst h
        induction rest with
        | nil => simpa [insertSorted] using hb
        | cons u us ih2 =>
          simp only [insertSorted] at hb
          by_cases hsu : strLe s u = true
          · rw [if_pos hsu] at hb
            simpa using hb
          · rw [if_neg hsu] at hb
            rcases List.mem_cons.mp hb with rfl | hb3
            · simp
            · rcases List.mem_cons.mp (ih2 hb3) with rfl | hb4
              · simp
              · simp [hb4]
      rcases List.mem_cons.mp hmem with rfl | hb3
      · exact hts
      · exact h.1 b hb3

theorem pairwise_sortStrings (l : List String) :
    (sortStrings l).Pairwise (fun a b => strLe a b = true) := by
  induction l with
  | nil => exact List.Pairwise.nil
  | cons s rest ih => exact pairwise_insertSorted s (sortStrings rest) ih

theorem perm_insertSorted (s : String) (l : List String) :
    List.Perm (insertSorted s l) (s :: l) := by
  induction l with
  | nil => rfl
  | cons t rest ih =>
    simp only [insertSorted]
    by_cases hst : strLe s t = true
    · rw [if_pos hst]
    · rw [if_neg hst]
      exact (List.Perm.cons t ih).trans (List.Perm.swap s t rest)

theorem perm_sortStrings (l : List String) : List.Perm (sortStrings l) l := by
  induction l with
  | nil => rfl
  | cons s rest ih => exact (perm_insertSorted s (sortStrings rest)).trans (ih.cons s)

theorem pairwise_flatMap_pairs (q : Values) :
    ∀ ks : List String, ks.Pairwise (fun a b => strLe a b = true) →
      (ks.flatMap (fun k => (q.get k).map (fun v => (k, v)))).Pairwise
        (fun p1 p2 => strLe p1.1 p2.1 = true) := by
  intro ks
  induction ks with
  | nil => intro _; exact List.Pairwise.nil
  | cons k rest ih =>
    intro h
    rw [List.pairwise_cons] at h
    rw [List.flatMap_cons, List.pairwise_append]
    refine ⟨?_, ih h.2, ?_⟩
    · rw [List.pairwise_map]
      clear ih h
      induction Values.get q k with
      | nil => exact List.Pairwise.nil
      | cons v vs ih2 => exact List.Pairwise.cons (fun b _ => strLe_refl k) ih2
    · intro p1 hp1 p2 hp2
      obtain ⟨v1, _, rfl⟩ := List.mem_map.mp hp1
      obtain ⟨k2, hk2, hp2b⟩ := List.mem_flatMap.mp hp2
      obtain ⟨v2, _, rfl⟩ := List.mem_map.mp hp2b
      exact h.1 k2 hk2

theorem pairwise_encodePairs (q : Values) :
    (Values.encodePairs q).Pairwise (fun p1 p2 => strLe p1.1 p2.1 = true) :=
  pairwise_flatMap_pairs q (sortStrings q.keys) (pairwise_sortStrings q.keys)

theorem Values.get_eq_nil_of_not_mem_keys {q : Values} {k : String} (h : k ∉ q.keys) :
    q.get k = [] := by
  induction q with
  | nil => rfl
  | cons e rest ih =>
    obtain ⟨k0, vs⟩ := e
    simp only [Values.keys, List.map_cons, List.mem_cons, not_or] at h
    obtain ⟨ha, hb⟩ := h
    simp only [Values.get, if_neg (Ne.symm ha)]
    exact ih hb

theorem filter_flatMap_pairs (q : Values) :
    ∀ ks : List String, ks.Nodup → ∀ k : String,
      ((ks.flatMap (fun k2 => (q.get k2).map (fun v => (k2, v)))).filter
          (fun p => p.1 == k)).map Prod.snd
        = if k ∈ ks then q.get k else [] := by
  intro ks
  induction ks with
  | nil => intro _ k; simp
  | cons k0 rest ih =>
    intro hnd k
    rw [List.nodup_cons] at hnd
    rw [List.flatMap_cons, List.filter_append, List.map_append]
    by_cases hk : k = k0
    · subst hk
      have h1 : ((Values.get q k).map (fun v => (k, v))).filter (fun p => p.1 == k)
          = (Values.get q k).map (fun v => (k, v)) := by
        rw [List.filter_eq_self]
        intro p hp
        obtain ⟨v, _, rfl⟩ := List.mem_map.mp hp
        simp
      rw [h1, ih hnd.2 k, if_neg hnd.1, if_pos (List.mem_cons_self _ _)]
      simp [List.map_map, Function.comp_def]
    · have h1 : ((Values.get q k0).map (fun v => (k0, v))).filter (fun p => p.1 == k) = [] := by
        rw [List.filter_eq_nil_iff]
        intro p hp
        obtain ⟨v, _, rfl⟩ := List.mem_map.mp hp
        simp [Ne.symm hk]
      rw [h1, ih hnd.2 k]
      simp [List.mem_cons, hk]

theorem Values.keys_add (q : Values) (k v : String) :
    (q.add k v).keys = if k ∈ q.keys then q.keys else q.keys ++ [k] := by
  induction q with
  | nil => simp [Values.add, Values.keys]
  | cons e rest ih =>
    obtain ⟨k0, vs⟩ := e
    by_cases h0 : k0 = k
    · subst h0; simp [Values.add, Values.keys]
    · simp only [Values.add, if_neg h0, Values.keys, List.map_cons] at ih ⊢
      rw [ih]
      by_cases hm : k ∈ List.map Prod.fst rest
      · simp [hm, Ne.symm h0]
      · simp [hm, Ne.symm h0]

theorem Values.keys_set (q : Values) (k v : String) :
    (q.set k v).keys = if k ∈ q.keys then q.keys else q.keys ++ [k] := by
  induction q with
  | nil => simp [Values.set, Values.keys]
  | cons e rest ih =>
    obtain ⟨k0, vs⟩ := e
    by_cases h0 : k0 = k
    · subst h0; simp [Values.set, Values.keys]
    · simp only [Values.set, if_neg h0, Values.keys, List.map_cons] at ih ⊢
      rw [ih]
      by_cases hm : k ∈ List.map Prod.fst rest
      · simp [hm, Ne.symm h0]
      · simp [hm, Ne.symm h0]

theorem nodup_ite_append {l : List String} {k : String} (h : l.Nodup) :
    (if k ∈ l then l else l ++ [k]).Nodup := by
  by_cases hm : k ∈ l
  · simpa [hm] using h
  · simp [hm, List.nodup_append, h]

theorem nodup_keys_add {q : Values} (k v : String) (h : q.keys.Nodup) :
    (q.add k v).keys.Nodup := by
  rw [Values.keys_add]; exact nodup_ite_append h

theorem nodup_keys_set {q : Values} (k v : String) (h : q.keys.Nodup) :
    (q.set k v).keys.Nodup := by
  rw [Values.keys_set]; exact nodup_ite_append h

theorem nodup_keys_applyQueryList (k : String) :
    ∀ (l : List Value) (i : Nat) (q : Values), q.keys.Nodup →
      (applyQueryList k i l q).keys.Nodup := by
  intro l
  induction l with
  | nil => intro i q h; exact h
  | cons v rest ih =>
    intro i q h
    cases v <;> simp only [applyQueryList] <;>
      first
      | exact ih _ _ h
      | (split <;> [exact ih _ _ (nodup_keys_set _ _ h); exact ih _ _ (nodup_keys_add _ _ h)])

theorem nodup_keys_updateQuery {k : String} {v : Value} {q q2 : Values}
    (h : updateQuery k v q = .ok q2) (hn : q.keys.Nodup) : q2.keys.Nodup := by
  cases v with
  | str s =>
    simp only [updateQuery, Outcome.ok.injEq] at h
    subst h; exact nodup_keys_add _ _ hn
  | strPtr s =>
    simp only [updateQuery, Outcome.ok.injEq] at h
    subst h; exact nodup_keys_add _ _ hn
  | int n =>
    simp only [updateQuery, Outcome.ok.injEq] at h
    subst h; exact nodup_keys_add _ _ hn
  | intPtr n =>
    simp only [updateQuery, Outcome.ok.injEq] at h
    subst h; exact nodup_keys_add _ _ hn
  | nil =>
    simp only [updateQuery, Outcome.ok.injEq] at h
    subst h; exact hn
  | list l =>
    simp only [updateQuery, Outcome.ok.injEq] at h
    subst h; exact nodup_keys_applyQueryList k l 0 q hn
  | values vs =>
    simp only [updateQuery] at h
    exact Outcome.noConfusion h
  | other =>
    simp only [updateQuery] at h
    exact Outcome.noConfusion h

theorem nodup_keys_applyQuerySet :
    ∀ {vs : List (String × List String)} {q q2 : Values},
      applyQuerySet vs q = .ok q2 → q.keys.Nodup → q2.keys.Nodup := by
  intro vs
  induction vs with
  | nil => intro q q2 h hn; cases h; exact hn
  | cons e rest ih =>
    intro q q2 h hn
    obtain ⟨k1, vs1⟩ := e
    simp only [applyQuerySet] at h
    rw [Outcome.bind_eq_ok] at h
    obtain ⟨q1, h1, h2⟩ := h
    exact ih h2 (nodup_keys_updateQuery h1 hn)

theorem nodup_keys_queryStepOne {args : List Value} {e : QueryPart} {q q2 : Values}
    (h : queryStepOne args e q = .ok q2) (hn : q.keys.Nodup) : q2.keys.Nodup := by
  obtain ⟨key, val⟩ := e
  cases val with
  | static v =>
    simp only [queryStepOne, Outcome.ok.injEq] at h
    subst h; exact nodup_keys_add _ _ hn
  | param i =>
    simp only [queryStepOne] at h
    by_cases hk : key ≠ ""
    · rw [if_pos hk, Outcome.bind_eq_ok] at h
      obtain ⟨a, _, h2⟩ := h
      exact nodup_keys_updateQuery h2 hn
    · rw [if_neg hk, Outcome.bind_eq_ok] at h
      obtain ⟨a, _, h2⟩ := h
      cases a <;> simp only at h2 <;> try exact Outcome.noConfusion h2
      exact nodup_keys_applyQuerySet h2 hn

theorem nodup_keys_queriesStep {args : List Value} :
    ∀ {qs : List QueryPart} {q q2 : Values},
      queriesStep qs args q = .ok q2 → q.keys.Nodup → q2.keys.Nodup := by
  intro qs
  induction qs with
  | nil => intro q q2 h hn; cases h; exact hn
  | cons e rest ih =>
    intro q q2 h hn
    simp only [queriesStep] at h
    rw [Outcome.bind_eq_ok] at h
    obtain ⟨q1, h1, h2⟩ := h
    exact ih h2 (nodup_keys_queryStepOne h1 hn)

/-- C2 (counterexample): the template `/x?b=1&a=2` binds `b` before `a`,
yet the output query is `a=2&b=1`: `url.Values.Encode` sorts keys
alphabetically, so the entries do not appear in first-occurrence key
order. -/
theorem c2_first_occurrence_key_order_fails :
    tryUrlf "/x?b=1&a=2" [] = .ok "/x?a=2&b=1" ∧ "/x?a=2&b=1" ≠ "/x?b=1&a=2" :=
  ⟨by decide, by decide⟩

/-- C2 (amended): for every template and argument list for which building
succeeds, the serialized query consists of the collected `key=value` pairs
with the keys in sorted (lexicographic byte) order — not first-occurrence
order — and, within each key, the values in binding order (the stored list
`Values.get qv k`, built by the in-order `Add`/`Set` calls). -/
theorem c2_amended_query_sorted_key_order (t : ParseResult) (args : List Value) (u : URLRec)
    (hb : buildURL t args = .ok u) :
    ∃ qv : Values,
      queriesStep t.queries args [] = .ok qv ∧
      u.rawQuery = renderPairs (Values.encodePairs qv) ∧
      (Values.encodePairs qv).Pairwise (fun p1 p2 => strLe p1.1 p2.1 = true) ∧
      ∀ k : String, ((Values.encodePairs qv).filter (fun p => p.1 == k)).map Prod.snd
        = Values.get qv k := by
  rw [buildURL_eq_ok] at hb
  obtain ⟨s0, sh, host, paths, qv, frag, _, _, _, _, h5, _, hu⟩ := hb
  refine ⟨qv, h5, by rw [hu]; rfl, pairwise_encodePairs qv, ?_⟩
  intro k
  have hnd : qv.keys.Nodup := nodup_keys_queriesStep h5 List.nodup_nil
  have hnd2 : (sortStrings qv.keys).Nodup := (perm_sortStrings qv.keys).nodup_iff.mpr hnd
  unfold Values.encodePairs
  rw [filter_flatMap_pairs qv (sortStrings qv.keys) hnd2 k]
  by_cases hm : k ∈ sortStrings qv.keys
  · rw [if_pos hm]
  · rw [if_neg hm]
    have hno : k ∉ qv.keys := fun hc => hm ((perm_sortStrings qv.keys).mem_iff.mpr hc)
    exact (Values.get_eq_nil_of_not_mem_keys hno).symm

/-- Witness for the amended C2 at a concrete input: the template model of
`/x?b=1&a=2` produces the raw query `a=2&b=1` with sorted keys. -/
theorem c2_amended_query_sorted_key_order_witness :
    ∃ qv : Values,
      queriesStep [⟨"b", .static "1"⟩, ⟨"a", .static "2"⟩] [] [] = .ok qv ∧
      URLRec.rawQuery
          { scheme := "", host := "", userSet := false, username := "", password := "",
            path := "/x", rawQuery := "a=2&b=1", fragment := "" }
        = renderPairs (Values.encodePairs qv) ∧
      (Values.encodePairs qv).Pairwise (fun p1 p2 => strLe p1.1 p2.1 = true) ∧
      ∀ k : String, ((Values.encodePairs qv).filter (fun p => p.1 == k)).map Prod.snd
        = Values.get qv k :=
  c2_amended_query_sorted_key_order
    { paths := [.static "/x"], queries := [⟨"b", .static "1"⟩, ⟨"a", .static "2"⟩] } []
    { scheme := "", host := "", userSet := false, username := "", password := "",
      path := "/x", rawQuery := "a=2&b=1", fragment := "" }
    (by decide)

theorem noDoubleSlash_cons_cons {a b : Char} {rest : List Char} :
    noDoubleSlash (a :: b :: rest) = true
      ↔ ¬(a = '/' ∧ b = '/') ∧ noDoubleSlash (b :: rest) = true := by
  simp only [noDoubleSlash, Bool.and_eq_true, Bool.not_eq_true', decide_eq_false_iff_not,
    and_congr_left_iff]

theorem noDoubleSlash_tail {a : Char} {rest : List Char}
    (h : noDoubleSlash (a :: rest) = true) : noDoubleSlash rest = true := by
  cases rest with
  | nil => rfl
  | cons b r2 => exact (noDoubleSlash_cons_cons.mp h).2

theorem noDoubleSlash_append_right {l r : List Char}
    (h : noDoubleSlash (l ++ r) = true) : noDoubleSlash r = true := by
  induction l with
  | nil => exact h
  | cons a l2 ih => exact ih (noDoubleSlash_tail h)

theorem noDoubleSlash_after_slash {l r : List Char}
    (h : noDoubleSlash (l ++ '/' :: r) = true) : r.head? ≠ some '/' := by
  have h2 : noDoubleSlash ('/' :: r) = true := noDoubleSlash_append_right h
  cases r with
  | nil => simp
  | cons b r2 =>
    have h3 := (noDoubleSlash_cons_cons.mp h2).1
    simp only [List.head?_cons, ne_eq, Option.some.injEq]
    intro hb
    exact h3 ⟨rfl, hb⟩

theorem splitSlash_no_slash {s : List Char} (h : ∀ c ∈ s, c ≠ '/') :
    splitSlash s = [s] := by
  induction s with
  | nil => rfl
  | cons c rest ih =>
    have hc : c ≠ '/' := h c (List.mem_cons_self _ _)
    have ih2 := ih (fun d hd => h d (List.mem_cons_of_mem _ hd))
    simp [splitSlash, hc, ih2]

theorem splitSlash_append {seg : List Char} (s2 : List Char) (h : ∀ c ∈ seg, c ≠ '/') :
    splitSlash (seg ++ '/' :: s2) = seg :: splitSlash s2 := by
  induction seg with
  | nil => simp [splitSlash]
  | cons c rest ih =>
    have hc : c ≠ '/' := h c (List.mem_cons_self _ _)
    have ih2 := ih (fun d hd => h d (List.mem_cons_of_mem _ hd))
    simp only [List.cons_append, splitSlash, if_neg hc]
    rw [show rest.append ('/' :: s2) = rest ++ '/' :: s2 from rfl, ih2]

theorem mem_of_getLast?_eq {α} : ∀ {l : List α} {x : α}, l.getLast? = some x → x ∈ l := by
  intro l
  induction l with
  | nil => intro x h; simp [List.getLast?] at h
  | cons a rest ih =>
    intro x h
    cases rest with
    | nil =>
      simp only [List.getLast?_singleton, Option.some.injEq] at h
      simp [h]
    | cons b r2 =>
      rw [List.getLast?_cons_cons] at h
      exact List.mem_cons_of_mem _ (ih h)

theorem pathJoin_getLast_slash (acc p : List Char) (hp : p.getLast? = some '/') :
    (pathJoin acc p).getLast? = some '/' := by
  unfold pathJoin
  split
  · next hcond =>
      cases p with
      | nil => simp [List.getLast?] at hp
      | cons x rest =>
        cases rest with
        | nil => simpa using hcond.1
        | cons y ys =>
          simp only [List.drop_succ_cons, List.drop_zero]
          rw [List.getLast?_append_cons, ← List.getLast?_cons_cons (a := x)]
          exact hp
  · next hcond =>
      cases p with
      | nil => simp [List.getLast?] at hp
      | cons x rest =>
        rw [List.getLast?_append_cons]
        exact hp

theorem getLast_append_slash_seg {acc seg : List Char} (hne : seg ≠ [])
    (hfree : ∀ c ∈ seg, c ≠ '/') : (acc ++ '/' :: seg).getLast? ≠ some '/' := by
  rw [List.getLast?_append_cons]
  obtain ⟨c0, cs, rfl⟩ : ∃ c0 cs, seg = c0 :: cs := by
    cases seg with
    | nil => exact absurd rfl hne
    | cons c0 cs => exact ⟨c0, cs, rfl⟩
  rw [List.getLast?_cons_cons]
  intro hcon
  exact hfree '/' (mem_of_getLast?_eq hcon) rfl

theorem getLast_append_seg {acc seg : List Char} (hne : seg ≠ [])
    (hfree : ∀ c ∈ seg, c ≠ '/') : (acc ++ seg).getLast? ≠ some '/' := by
  rw [List.getLast?_append_of_ne_nil acc hne]
  intro hcon
  exact hfree '/' (mem_of_getLast?_eq hcon) rfl

theorem foldPathJoin_not_slash_end :
    ∀ (n : Nat) (s : List Char), s.length ≤ n →
      ∀ acc : List Char, acc.getLast? ≠ some '/' → noDoubleSlash s = true →
        s.head? ≠ some '/' →
        ((splitSlash s).map (fun seg => '/' :: seg)).foldl pathJoin acc = acc ++ '/' :: s := by
  intro n
  induction n with
  | zero =>
    intro s hlen acc hacc _ _
    have hs : s = [] := List.eq_nil_of_length_eq_zero (Nat.le_zero.mp hlen)
    subst hs
    simp only [splitSlash, List.map_cons, List.map_nil, List.foldl_cons, List.foldl_nil]
    unfold pathJoin
    rw [if_neg (fun hcon => hacc hcon.1)]
  | succ n ih =>
    intro s hlen acc hacc hnd hhead
    by_cases hall : s.all (fun c => c != '/') = true
    · have hfree : ∀ c ∈ s, c ≠ '/' := by
        intro c hc
        have := (List.all_eq_true.mp hall) c hc
        simpa using this
      rw [splitSlash_no_slash hfree]
      simp only [List.map_cons, List.map_nil, List.foldl_cons, List.foldl_nil]
      unfold pathJoin
      rw [if_neg (fun hcon => hacc hcon.1)]
    · obtain ⟨c, t, hsplit, hc, hallw⟩ :=
        takeWhile_stop (fun c => c != '/') s (Bool.not_eq_true _ ▸ hall)
      have hceq : c = '/' := by simpa using hc
      subst hceq
      have hfree : ∀ d ∈ s.takeWhile (fun c => c != '/'), d ≠ '/' := by
        intro d hd
        have := (List.all_eq_true.mp hallw) d hd
        simpa using this
      have hsegne : s.takeWhile (fun c => c != '/') ≠ [] := by
        intro h0
        rw [h0, List.nil_append] at hsplit
        rw [hsplit] at hhead
        simp at hhead
      rw [hsplit, splitSlash_append t hfree]
      simp only [List.map_cons, List.foldl_cons]
      have hpj : pathJoin acc ('/' :: s.takeWhile (fun c => c != '/'))
          = acc ++ '/' :: s.takeWhile (fun c => c != '/') := by
        unfold pathJoin
        rw [if_neg (fun hcon => hacc hcon.1)]
      rw [hpj]
      have hacc2 : (acc ++ '/' :: s.takeWhile (fun c => c != '/')).getLast? ≠ some '/' :=
        getLast_append_slash_seg hsegne hfree
      have hndt : noDoubleSlash t = true := by
        rw [hsplit] at hnd
        exact noDoubleSlash_tail (noDoubleSlash_append_right hnd)
      have hheadt : t.head? ≠ some '/' := by
        rw [hsplit] at hnd
        exact noDoubleSlash_after_slash hnd
      have hlent : t.length ≤ n := by
        rw [hsplit] at hlen
        simp only [List.length_append, List.length_cons] at hlen
        omega
      rw [ih t hlent _ hacc2 hndt hheadt]
      simp

theorem foldPathJoin_slash_end :
    ∀ (n : Nat) (s : List Char), s.length ≤ n →
      ∀ acc : List Char, acc.getLast? = some '/' → noDoubleSlash s = true →
        ((splitSlash s).map (fun seg => '/' :: seg)).foldl pathJoin acc = pathJoin acc s := by
  intro n
  induction n with
  | zero =>
    intro s hlen acc hacc _
    have hs : s = [] := List.eq_nil_of_length_eq_zero (Nat.le_zero.mp hlen)
    subst hs
    simp [splitSlash, pathJoin, hacc]
  | succ n ih =>
    intro s hlen acc hacc hnd
    by_cases hall : s.all (fun c => c != '/') = true
    · have hfree : ∀ c ∈ s, c ≠ '/' := by
        intro c hc
        have := (List.all_eq_true.mp hall) c hc
        simpa using this
      rw [splitSlash_no_slash hfree]
      simp only [List.map_cons, List.map_nil, List.foldl_cons, List.foldl_nil]
      have hL : pathJoin acc ('/' :: s) = acc ++ s := by
        unfold pathJoin
        rw [if_pos ⟨hacc, rfl⟩]
        simp
      rw [hL]
      cases s with
      | nil => simp [pathJoin]
      | cons c0 cs =>
        have hc0 : c0 ≠ '/' := hfree c0 (List.mem_cons_self _ _)
        unfold pathJoin
        rw [if_neg (fun hcon => hc0 (by simpa using hcon.2))]
    · obtain ⟨c, t, hsplit, hc, hallw⟩ :=
        takeWhile_stop (fun c => c != '/') s (Bool.not_eq_true _ ▸ hall)
      have hceq : c = '/' := by simpa using hc
      subst hceq
      have hfree : ∀ d ∈ s.takeWhile (fun c => c != '/'), d ≠ '/' := by
        intro d hd
        have := (List.all_eq_true.mp hallw) d hd
        simpa using this
      have hndt : noDoubleSlash t = true := by
        rw [hsplit] at hnd
        exact noDoubleSlash_tail (noDoubleSlash_append_right hnd)
      have hheadt : t.head? ≠ some '/' := by
        rw [hsplit] at hnd
        exact noDoubleSlash_after_slash hnd
      have hlent : t.length ≤ n := by
        rw [hsplit] at hlen
        simp only [List.length_append, List.length_cons] at hlen
        omega
      by_cases hseg : s.takeWhile (fun c => c != '/') = []
      · rw [hsplit, hseg, List.nil_append]
        have hss : splitSlash ('/' :: t) = [] :: splitSlash t := by
          simp [splitSlash]
        rw [hss]
        simp only [List.map_cons, List.foldl_cons]
        have h1 : pathJoin acc ('/' :: ([] : List Char)) = acc := by
          unfold pathJoin
          rw [if_pos ⟨hacc, rfl⟩]
          simp
        rw [h1, ih t hlent acc hacc hndt]
        have h2 : pathJoin acc ('/' :: t) = acc ++ t := by
          unfold pathJoin
          rw [if_pos ⟨hacc, rfl⟩]
          simp
        rw [h2]
        cases t with
        | nil => simp [pathJoin]
        | cons d ds =>
          have hd : d ≠ '/' := by
            simp only [List.head?_cons, ne_eq, Option.some.injEq] at hheadt
            exact hheadt
          unfold pathJoin
          rw [if_neg (fun hcon => hd (by simpa using hcon.2))]
      · rw [hsplit, splitSlash_append t hfree]
        simp only [List.map_cons, List.foldl_cons]
        have hpj : pathJoin acc ('/' :: s.takeWhile (fun c => c != '/'))
            = acc ++ s.takeWhile (fun c => c != '/') := by
          unfold pathJoin
          rw [if_pos ⟨hacc, rfl⟩]
          simp
        rw [hpj]
        have hacc2 : (acc ++ s.takeWhile (fun c => c != '/')).getLast? ≠ some '/' :=
          getLast_append_seg hseg hfree
        rw [foldPathJoin_not_slash_end n t hlent _ hacc2 hndt hheadt]
        have hRHS : pathJoin acc (s.takeWhile (fun c => c != '/') ++ '/' :: t)
            = acc ++ (s.takeWhile (fun c => c != '/') ++ '/' :: t) := by
          obtain ⟨c0, cs, hseg2⟩ : ∃ c0 cs, s.takeWhile (fun c => c != '/') = c0 :: cs := by
            cases hcase : s.takeWhile (fun c => c != '/') with
            | nil => exact absurd hcase hseg
            | cons c0 cs => exact ⟨c0, cs, rfl⟩
          have hc0 : c0 ≠ '/' := hfree c0 (by rw [hseg2]; exact List.mem_cons_self _ _)
          unfold pathJoin
          rw [if_neg]
          rw [hseg2]
          intro hcon
          exact hc0 (by simpa using hcon.2)
        rw [hRHS]
        simp

theorem getArg_set_ne {args : List Value} {i j : Nat} (x : Value) (h : i ≠ j) :
    getArg (args.set i x) j = getArg args j := by
  unfold getArg
  rw [List.getElem?_set_ne h]

theorem getArg_set_self {args : List Value} {i : Nat} {v : Value} (x : Value)
    (h : args[i]? = some v) : getArg (args.set i x) i = .ok x := by
  unfold getArg
  rw [List.getElem?_set_self', h]
  rfl

theorem schemeStep_congr {p : Option (part String)} {args args2 : List Value}
    (h : ∀ j, p = some (.param j) → getArg args2 j = getArg args j) :
    schemeStep p args2 = schemeStep p args := by
  match p with
  | none => rfl
  | some (.static v) => rfl
  | some (.param j) => simp only [schemeStep, h j rfl]

theorem hostStep_congr {p : Option (part String)} {args args2 : List Value} (scheme : String)
    (h : ∀ j, p = some (.param j) → getArg args2 j = getArg args j) :
    hostStep p args2 scheme = hostStep p args scheme := by
  match p with
  | none => rfl
  | some (.static v) => rfl
  | some (.param j) => simp only [hostStep, h j rfl]

theorem portStep_congr {p : Option (part Nat)} {args args2 : List Value} (host : String)
    (h : ∀ j, p = some (.param j) → getArg args2 j = getArg args j) :
    portStep p args2 host = portStep p args host := by
  match p with
  | none => rfl
  | some (.static v) => rfl
  | some (.param j) => simp only [portStep, h j rfl]

theorem fragmentStep_congr {p : Option (part String)} {args args2 : List Value}
    (h : ∀ j, p = some (.param j) → getArg args2 j = getArg args j) :
    fragmentStep p args2 = fragmentStep p args := by
  match p with
  | none => rfl
  | some (.static v) => rfl
  | some (.param j) => simp only [fragmentStep, h j rfl]

theorem queryStepOne_congr {e : QueryPart} {args args2 : List Value} (q : Values)
    (h : ∀ j, e.value = .param j → getArg args2 j = getArg args j) :
    queryStepOne args2 e q = queryStepOne args e q := by
  obtain ⟨key, val⟩ := e
  match val with
  | .static v => rfl
  | .param j => simp only [queryStepOne, h j rfl]

theorem queriesStep_congr {qs : List QueryPart} {args args2 : List Value}
    (h : ∀ e ∈ qs, ∀ j, e.value = .param j → getArg args2 j = getArg args j) :
    ∀ q : Values, queriesStep qs args2 q = queriesStep qs args q := by
  induction qs with
  | nil => intro q; rfl
  | cons e rest ih =>
    intro q
    simp only [queriesStep,
      queryStepOne_congr q (fun j hj => h e (List.mem_cons_self _ _) j hj)]
    refine congrArg (Outcome.bind _) (funext fun q2 => ?_)
    exact ih (fun e2 he2 j hj => h e2 (List.mem_cons_of_mem _ he2) j hj) q2

theorem pathOne_congr {p : part String} {args args2 : List Value}
    (h : ∀ j, p = .param j → getArg args2 j = getArg args j) :
    pathOne args2 p = pathOne args p := by
  match p with
  | .static v => rfl
  | .param j => simp only [pathOne, h j rfl]

theorem pathsStep_congr {ps : List (part String)} {args args2 : List Value}
    (h : ∀ p ∈ ps, ∀ j, p = .param j → getArg args2 j = getArg args j) :
    pathsStep ps args2 = pathsStep ps args := by
  induction ps with
  | nil => rfl
  | cons p rest ih =>
    simp only [pathsStep, pathOne_congr (fun j hj => h p (List.mem_cons_self _ _) j hj),
      ih (fun p2 hp2 j hj => h p2 (List.mem_cons_of_mem _ hp2) j hj)]

theorem flatMap_listElemSeg_strs (L : List (List Char)) :
    ((L.map (fun seg => Value.str ⟨seg⟩)).flatMap listElemSeg)
      = L.map (fun seg => "/" ++ (⟨seg⟩ : String)) := by
  induction L with
  | nil => rfl
  | cons a rest ih => simp [listElemSeg, ih]

theorem bind_eq_of_map_eq {α β γ : Type} {x y : Outcome α} (f : α → β)
    (hf : x.map' f = y.map' f) (g : β → Outcome γ) :
    x.bind (fun a => g (f a)) = y.bind (fun a => g (f a)) := by
  cases x <;> cases y <;> simp [Outcome.map'] at hf <;> simp [Outcome.bind, hf]

theorem joinPaths_string_vs_split (P D : List String) (ps s : String)
    (hps : ps.data.getLast? = some '/') (hnd : noDoubleSlash s.data = true) :
    joinPaths (P ++ ([ps] ++ ((splitSlash s.data).map (fun seg => "/" ++ (⟨seg⟩ : String)) ++ D)))
      = joinPaths (P ++ ([ps] ++ ([s] ++ D))) := by
  unfold joinPaths
  congr 1
  simp only [List.map_append, List.foldl_append, List.map_cons, List.map_nil, List.foldl_cons,
    List.foldl_nil]
  congr 1
  have hacc1 : (pathJoin ((P.map String.data).foldl pathJoin []) ps.data).getLast? = some '/' :=
    pathJoin_getLast_slash _ _ hps
  have hE : (((splitSlash s.data).map (fun seg => "/" ++ (⟨seg⟩ : String))).map String.data)
      = (splitSlash s.data).map (fun seg => '/' :: seg) := by
    rw [List.map_map]
    rfl
  rw [hE, foldPathJoin_slash_end s.data.length s.data Nat.le.refl _ hacc1 hnd]

theorem pathsOutcome_string_vs_split (args : List Value) (i : Nat) (s : String)
    (pre post : List (part String)) (ps : String)
    (hps : ps.data.getLast? = some '/')
    (hargs : args[i]? = some (.str s))
    (hnd : noDoubleSlash s.data = true)
    (hpre : ∀ p ∈ pre, ∀ j, p = part.param j → j ≠ i)
    (hpost : ∀ p ∈ post, ∀ j, p = part.param j → j ≠ i) :
    Outcome.map' joinPaths
        (pathsStep (pre ++ .static ps :: .param i :: post) (args.set i (splitArg s)))
      = Outcome.map' joinPaths (pathsStep (pre ++ .static ps :: .param i :: post) args) := by
  have hgne : ∀ j, j ≠ i → getArg (args.set i (splitArg s)) j = getArg args j :=
    fun j hj => getArg_set_ne _ (Ne.symm hj)
  have hpreE : pathsStep pre (args.set i (splitArg s)) = pathsStep pre args :=
    pathsStep_congr (fun p hp j hj => hgne j (hpre p hp j hj))
  have hpostE : pathsStep post (args.set i (splitArg s)) = pathsStep post args :=
    pathsStep_congr (fun p hp j hj => hgne j (hpost p hp j hj))
  have h1 : pathOne args (.param i) = .ok [s] := by
    simp [pathOne, getArg, hargs, Outcome.bind]
  have h2 : pathOne (args.set i (splitArg s)) (.param i)
      = .ok ((splitSlash s.data).map (fun seg => "/" ++ (⟨seg⟩ : String))) := by
    simp only [pathOne, getArg_set_self _ hargs, Outcome.bind_ok_left, splitArg]
    rw [flatMap_listElemSeg_strs]
  have h0 : ∀ A : List Value, pathOne A (.static ps) = .ok [ps] := fun A => rfl
  rw [pathsStep_append, pathsStep_append]
  simp only [pathsStep, h0, h1, h2, hpreE, hpostE, Outcome.bind_ok_left]
  rcases pathsStep pre args with P | e | _ | _ <;>
    simp only [Outcome.bind, Outcome.map']
  rcases pathsStep post args with D | e | _ | _ <;>
    simp only [Outcome.bind, Outcome.map']
  rw [joinPaths_string_vs_split P D ps s hps hnd]

/-- C5 (counterexample): binding the string `a//b` (which contains `/`) to
the path placeholder of `http://h/u/\x7b\x7d/` keeps the doubled slash,
while binding the list obtained by splitting on `/` collapses it: the
slash-deduplication of the final path loop removes at most one slash at
each chunk junction, so the two outputs differ. -/
theorem c5_string_and_split_list_can_differ :
    tryUrlf "http://h/u/\x7b\x7d/" [Value.str "a//b"] = .ok "http://h/u/a//b/" ∧
    tryUrlf "http://h/u/\x7b\x7d/" [splitArg "a//b"] = .ok "http://h/u/a/b/" ∧
    ("http://h/u/a//b/" : String) ≠ "http://h/u/a/b/" :=
  ⟨by decide, by decide, by decide⟩

/-- C5 (amended): for a path placeholder preceded, as the parser
guarantees, by a static chunk ending in `/`, and for a string `s` that
contains `/` but no two adjacent slashes, formatting with the string
argument `s` builds exactly the same URL record — hence the same rendered,
percent-encoded URL string — as formatting with the list argument obtained
by splitting `s` on `/`, provided no other slot references the same
argument index. -/
theorem c5_amended_path_string_splits (t : ParseResult) (args : List Value) (i : Nat)
    (s : String) (pre post : List (part String)) (ps : String)
    (hpaths : t.paths = pre ++ .static ps :: .param i :: post)
    (hps : ps.data.getLast? = some '/')
    (hargs : args[i]? = some (.str s))
    (_hslash : '/' ∈ s.data)
    (hnd : noDoubleSlash s.data = true)
    (hproto : ∀ j, t.protocol = some (.param j) → j ≠ i)
    (hhost : ∀ j, t.hostname = some (.param j) → j ≠ i)
    (hport : ∀ j, t.port = some (.param j) → j ≠ i)
    (hfrag : ∀ j, t.fragment = some (.param j) → j ≠ i)
    (hquer : ∀ e ∈ t.queries, ∀ j, e.value = part.param j → j ≠ i)
    (hpre : ∀ p ∈ pre, ∀ j, p = part.param j → j ≠ i)
    (hpost : ∀ p ∈ post, ∀ j, p = part.param j → j ≠ i) :
    buildURL t (args.set i (splitArg s)) = buildURL t args ∧
    (buildURL t (args.set i (splitArg s))).map' URLRec.render
      = (buildURL t args).map' URLRec.render := by
  suffices hmain : buildURL t (args.set i (splitArg s)) = buildURL t args by
    exact ⟨hmain, by rw [hmain]⟩
  have hgne : ∀ j, j ≠ i → getArg (args.set i (splitArg s)) j = getArg args j :=
    fun j hj => getArg_set_ne _ (Ne.symm hj)
  have e1 : schemeStep t.protocol (args.set i (splitArg s)) = schemeStep t.protocol args :=
    schemeStep_congr (fun j hj => hgne j (hproto j hj))
  have e2 : ∀ sch, hostStep t.hostname (args.set i (splitArg s)) sch
      = hostStep t.hostname args sch :=
    fun sch => hostStep_congr sch (fun j hj => hgne j (hhost j hj))
  have e3 : ∀ h, portStep t.port (args.set i (splitArg s)) h = portStep t.port args h :=
    fun h => portStep_congr h (fun j hj => hgne j (hport j hj))
  have e5 : ∀ q, queriesStep t.queries (args.set i (splitArg s)) q
      = queriesStep t.queries args q :=
    queriesStep_congr (fun e he j hj => hgne j (hquer e he j hj))
  have e6 : fragmentStep t.fragment (args.set i (splitArg s)) = fragmentStep t.fragment args :=
    fragmentStep_congr (fun j hj => hgne j (hfrag j hj))
  have e4 : Outcome.map' joinPaths (pathsStep t.paths (args.set i (splitArg s)))
      = Outcome.map' joinPaths (pathsStep t.paths args) := by
    rw [hpaths]
    exact pathsOutcome_string_vs_split args i s pre post ps hps hargs hnd hpre hpost
  unfold buildURL
  rw [e1]
  refine congrArg (Outcome.bind _) (funext fun s0 => ?_)
  rw [e2]
  refine congrArg (Outcome.bind _) (funext fun sh => ?_)
  rw [e3]
  refine congrArg (Outcome.bind _) (funext fun host => ?_)
  simp only [e5, e6]
  exact bind_eq_of_map_eq joinPaths e4
    (fun jp =>
      (queriesStep t.queries args []).bind fun q =>
      (fragmentStep t.fragment args).bind fun frag =>
      Outcome.ok ({ scheme := sh.1, host := host, userSet := t.username != "",
                    username := t.username, password := t.password,
                    path := jp, rawQuery := Values.encode q, fragment := frag } : URLRec))

/-- Witness for the amended C5 at a concrete input: in the template model
of `http://h/u/\x7b\x7d/`, binding `a/b` and binding the split list
`["a","b"]` build the same URL record. -/
theorem c5_amended_path_string_splits_witness :
    buildURL
        { protocol := some (.static "http"), hostname := some (.static "h"),
          paths := [.static "/u/", .param 0, .static "/"] }
        ([Value.str "a/b"].set 0 (splitArg "a/b"))
      = buildURL
        { protocol := some (.static "http"), hostname := some (.static "h"),
          paths := [.static "/u/", .param 0, .static "/"] }
        [Value.str "a/b"] :=
  (c5_amended_path_string_splits
    { protocol := some (.static "http"), hostname := some (.static "h"),
      paths := [.static "/u/", .param 0, .static "/"] }
    [Value.str "a/b"] 0 "a/b" [] [part.static "/"] "/u/"
    rfl (by decide) rfl (by decide) (by decide)
    (fun j hj => by simp at hj) (fun j hj => by simp at hj) (fun j hj => by simp at hj)
    (fun j hj => by simp at hj)
    (fun e he j hj => by simp at he)
    (fun p hp j hj => by simp at hp)
    (fun p hp j hj => by
      simp only [List.mem_singleton] at hp
      subst hp
      simp at hj)).1
